import Mathlib

/-!
Verification of the `list_pool` arena allocator for singly linked lists
(`src/list_pool.hpp`).

Handles are natural numbers; handle `0` is the sentinel meaning
empty list / end of list / empty free chain.  The pool is a growable
sequence of nodes, each holding a value and the handle of its successor.

Fallible operations return `Except PoolErr`; the `invalid_argument`
constructor models the `std::invalid_argument` exceptions thrown by
`check_index1` / `check_index2` (what the design document calls
InvalidHandle), while `undefined_behavior` marks executions on which the
C++ source performs an out-of-range `std::vector::operator[]` access or
runs a loop that does not terminate: those executions have no defined
behavior in the source, so they are kept apart from thrown exceptions.
-/

set_option autoImplicit false

/-- A pool node: a stored value together with the handle of its successor
(`Node` in `list_pool.hpp`). -/
structure Node (V : Type) where
  value : V
  next : Nat
deriving DecidableEq

/-- Errors of the embedded operations: `invalid_argument` for the thrown
`std::invalid_argument` exceptions (InvalidHandle), `undefined_behavior`
for executions undefined in the C++ source. -/
inductive PoolErr where
  | invalid_argument (msg : String)
  | undefined_behavior (msg : String)
deriving DecidableEq

/-- The pool state: the backing vector of nodes (1-based handles, node
`i` lives at position `i - 1`) and the handle of the free-chain head. -/
structure list_pool (V : Type) where
  pool : List (Node V)
  free_node_list : Nat
deriving DecidableEq

namespace list_pool

variable {V : Type}

/-- The default constructor: empty backing vector, empty free chain. -/
def new : list_pool V := { pool := [], free_node_list := 0 }

/-- `size()`: the number of nodes in the backing vector. -/
def size (p : list_pool V) : Nat := p.pool.length

/-- `is_empty(head)`: the handle equals the sentinel `end() == 0`. -/
def is_empty (_p : list_pool V) (head : Nat) : Bool := head == 0

/-- `new_list()`: returns the sentinel handle. -/
def new_list (_p : list_pool V) : Nat := 0

/-- The unchecked private accessor `node(index)`, which reads
`pool[index - 1]`: `none` exactly when the C++ access is out of range
(undefined behavior there).  `index = 0` maps to `pool[SIZE_MAX]` in the
source, always out of range. -/
def node? (p : list_pool V) (i : Nat) : Option (Node V) :=
  if i = 0 then none else p.pool[i-1]?

/-- Overwriting the node slot `i` (in-place mutation through `node(i)`). -/
def setNode (p : list_pool V) (i : Nat) (n : Node V) : list_pool V :=
  { p with pool := p.pool.set (i-1) n }

/-- The unchecked `node(index)` read as a computation: out-of-range
access is undefined behavior in the source. -/
def readNode (p : list_pool V) (i : Nat) : Except PoolErr (Node V) :=
  match p.node? i with
  | some n => .ok n
  | none => .error (.undefined_behavior "out-of-range node access")

/-- `check_index1(index)`: throws when `index > pool.size()`. -/
def check_index1 (p : list_pool V) (i : Nat) : Except PoolErr Unit :=
  if i > p.size then
    .error (.invalid_argument "the value of the provided index is invalid, too big")
  else .ok ()

/-- `check_index2(index)`: throws when `index` is the sentinel, then
defers to `check_index1`. -/
def check_index2 (p : list_pool V) (i : Nat) : Except PoolErr Unit :=
  if p.is_empty i then .error (.invalid_argument "the list should not be empty")
  else p.check_index1 i

/-- `value(index)` (read form): checked access to the stored value. -/
def value (p : list_pool V) (i : Nat) : Except PoolErr V := do
  p.check_index2 i
  let n ← p.readNode i
  pure n.value

/-- `value(index) = v` (write form through the returned reference). -/
def write_value (p : list_pool V) (i : Nat) (v : V) : Except PoolErr (list_pool V) := do
  p.check_index2 i
  let n ← p.readNode i
  pure (p.setNode i { n with value := v })

/-- `next(index)` (read form): checked access to the successor handle. -/
def next (p : list_pool V) (i : Nat) : Except PoolErr Nat := do
  p.check_index2 i
  let n ← p.readNode i
  pure n.next

/-- `next(index) = j` (write form through the returned reference). -/
def write_next (p : list_pool V) (i : Nat) (j : Nat) : Except PoolErr (list_pool V) := do
  p.check_index2 i
  let n ← p.readNode i
  pure (p.setNode i { n with next := j })

/-- The `get_tail(index)` loop, with explicit fuel: follows `next` links
until a node whose successor is the sentinel.  Running out of fuel means
the source loop never terminates; a failed node read is the source's
out-of-range access.  Both are undefined behavior. -/
def get_tail (p : list_pool V) : Nat → Nat → Except PoolErr Nat
  | 0, _ => .error (.undefined_behavior "get_tail does not terminate")
  | fuel+1, i =>
    match p.node? i with
    | none => .error (.undefined_behavior "out-of-range node access")
    | some n => if n.next = 0 then .ok i else p.get_tail fuel n.next

/-- `fpush_front(value, head)`: checked head, then allocate a fresh node
or recycle the head of the free chain. -/
def fpush_front (p : list_pool V) (v : V) (head : Nat) : Except PoolErr (Nat × list_pool V) := do
  p.check_index1 head
  if p.is_empty p.free_node_list then
    let pool' := p.pool ++ [⟨v, head⟩]
    pure (pool'.length, { pool := pool', free_node_list := p.free_node_list })
  else do
    let newhead := p.free_node_list
    let n ← p.readNode newhead
    let p1 : list_pool V := { p with free_node_list := n.next }
    pure (newhead, p1.setNode newhead ⟨v, head⟩)

/-- `fpush_back(value, head)`: delegate to `fpush_front` on the empty
list, otherwise walk to the tail (no bounds check on `head` happens
before that walk) and link a fresh or recycled node after it. -/
def fpush_back (p : list_pool V) (v : V) (head : Nat) : Except PoolErr (Nat × list_pool V) := do
  if p.is_empty head then p.fpush_front v head
  else do
    let tail ← p.get_tail (p.size + 1) head
    if p.is_empty p.free_node_list then
      let p1 : list_pool V := { p with pool := p.pool ++ [⟨v, 0⟩] }
      let p2 ← p1.write_next tail p1.size
      pure (head, p2)
    else do
      let p1 ← p.write_next tail p.free_node_list
      let n ← p1.readNode p.free_node_list
      let p2 : list_pool V := { p1 with free_node_list := n.next }
      pure (head, p2.setNode p.free_node_list ⟨v, 0⟩)

/-- Public `push_front(value, head)` (both overloads delegate to
`fpush_front`). -/
def push_front (p : list_pool V) (v : V) (head : Nat) : Except PoolErr (Nat × list_pool V) :=
  p.fpush_front v head

/-- Public `push_back(value, head)` (both overloads delegate to
`fpush_back`). -/
def push_back (p : list_pool V) (v : V) (head : Nat) : Except PoolErr (Nat × list_pool V) :=
  p.fpush_back v head

/-- `free(head)`: pop the head node onto the free chain, returning the
old successor; no-op on the sentinel. -/
def free (p : list_pool V) (head : Nat) : Except PoolErr (Nat × list_pool V) :=
  if p.is_empty head then .ok (head, p)
  else do
    p.check_index1 head
    let n ← p.readNode head
    let p1 := p.setNode head { n with next := p.free_node_list }
    pure (n.next, { p1 with free_node_list := head })

/-- `free_list(head)`: splice the whole chain starting at `head` onto
the free chain and return a fresh empty list; no-op on the sentinel. -/
def free_list (p : list_pool V) (head : Nat) : Except PoolErr (Nat × list_pool V) :=
  if p.is_empty head then .ok (head, p)
  else do
    p.check_index1 head
    let tail ← p.get_tail (p.size + 1) head
    let n ← p.readNode tail
    let p1 := p.setNode tail { n with next := p.free_node_list }
    pure (0, { p1 with free_node_list := head })

/-- The list of handles visited by following `next` links from `h` until
the sentinel, with explicit fuel; `none` when the walk runs off the pool
or does not finish within the fuel. -/
def chain (p : list_pool V) : Nat → Nat → Option (List Nat)
  | fuel+1, h =>
    if h = 0 then some []
    else
      match p.node? h with
      | none => none
      | some n => (p.chain fuel n.next).map (fun t => h :: t)
  | 0, h => if h = 0 then some [] else none

/-- The values yielded by traversing from `h` with the pool's iterator
(`operator*` then `operator++` until the sentinel), with explicit fuel. -/
def traverse (p : list_pool V) : Nat → Nat → Option (List V)
  | fuel+1, h =>
    if h = 0 then some []
    else
      match p.node? h with
      | none => none
      | some n => (p.traverse fuel n.next).map (fun t => n.value :: t)
  | 0, h => if h = 0 then some [] else none

end list_pool

/-- The traversal cursor `list_pool_iterator::Iter`: a pool together
with the current handle. -/
structure Iter (V : Type) where
  pool : list_pool V
  current : Nat
deriving DecidableEq

namespace Iter

variable {V : Type}

/-- `Iter::update()`: when the current handle is not the sentinel,
advance to the current node's successor (an unchecked `node` read,
undefined behavior when the handle is out of range); at the sentinel,
do nothing and read nothing. -/
def update (it : Iter V) : Except PoolErr (Iter V) :=
  if it.current = 0 then .ok it
  else
    match it.pool.node? it.current with
    | some n => .ok { it with current := n.next }
    | none => .error (.undefined_behavior "out-of-range node access")

/-- `Iter::operator++` (prefix): delegates to `update`. -/
def inc (it : Iter V) : Except PoolErr (Iter V) := it.update

end Iter

/-! ### Basic lemmas about checks and node access -/

namespace list_pool

variable {V : Type}

theorem check_index2_zero (p : list_pool V) :
    p.check_index2 0 = .error (.invalid_argument "the list should not be empty") := by
  simp [check_index2, is_empty]

theorem check_index2_big (p : list_pool V) {h : Nat} (hgt : h > p.size) :
    p.check_index2 h
      = .error (.invalid_argument "the value of the provided index is invalid, too big") := by
  have h0 : h ≠ 0 := by omega
  simp [check_index2, is_empty, h0, check_index1, hgt]

theorem check_index2_ok (p : list_pool V) {h : Nat} (h1 : h ≠ 0) (h2 : h ≤ p.size) :
    p.check_index2 h = .ok () := by
  simp [check_index2, is_empty, h1, check_index1]
  omega

theorem check_index1_ok (p : list_pool V) {h : Nat} (h2 : h ≤ p.size) :
    p.check_index1 h = .ok () := by
  simp [check_index1]
  omega

theorem node?_isSome (p : list_pool V) {h : Nat} (h1 : h ≠ 0) (h2 : h ≤ p.size) :
    ∃ n, p.node? h = some n := by
  simp only [node?, h1, if_false]
  have : h - 1 < p.pool.length := by
    have := h2
    simp only [size] at this
    omega
  exact ⟨p.pool[h-1], List.getElem?_eq_getElem this⟩

end list_pool

/-- Bind on a successful `Except` computation. -/
@[simp] theorem exceptBind_ok {e a b : Type} (x : a) (f : a → Except e b) :
    (Except.ok x >>= f) = f x := rfl

/-- Bind on a failed `Except` computation. -/
@[simp] theorem exceptBind_error {e a b : Type} (err : e) (f : a → Except e b) :
    ((Except.error err : Except e a) >>= f) = Except.error err := rfl

/-! ### Claims C1, C3, C8, C10 -/

/-- Claim C1 (evaluation at the failing input): on a fresh pool,
`push_back(0, 1)` with the non-sentinel out-of-range head `1` does NOT
raise InvalidHandle: `fpush_back` performs no bounds check on `head` and
hands it straight to `get_tail`, whose unchecked `node()` read is an
out-of-range `std::vector` access (undefined behavior).  `push_front`
with the same head raises InvalidHandle, so the two are not alike on
out-of-range heads, contrary to the claim. -/
theorem C1_push_back_out_of_range_is_undefined :
    (list_pool.new (V := Nat)).push_back 0 1
      = .error (.undefined_behavior "out-of-range node access")
    ∧ (list_pool.new (V := Nat)).push_front 0 1
      = .error (.invalid_argument "the value of the provided index is invalid, too big") :=
  ⟨rfl, rfl⟩

/-- Claim C3: `value` and `next`, in both read and write forms, raise
InvalidHandle on the sentinel handle `0` and on any handle greater than
`size()`. -/
theorem C3_value_next_invalid_handle {V : Type} (p : list_pool V) (h : Nat) (v : V) (j : Nat)
    (hgt : h > p.size) :
    (∃ m, p.value 0 = .error (.invalid_argument m)) ∧
    (∃ m, p.next 0 = .error (.invalid_argument m)) ∧
    (∃ m, p.write_value 0 v = .error (.invalid_argument m)) ∧
    (∃ m, p.write_next 0 j = .error (.invalid_argument m)) ∧
    (∃ m, p.value h = .error (.invalid_argument m)) ∧
    (∃ m, p.next h = .error (.invalid_argument m)) ∧
    (∃ m, p.write_value h v = .error (.invalid_argument m)) ∧
    (∃ m, p.write_next h j = .error (.invalid_argument m)) := by
  simp [list_pool.value, list_pool.next, list_pool.write_value, list_pool.write_next,
    p.check_index2_zero, p.check_index2_big hgt]

/-- Witness for C3 at a concrete input: a pool of one node, handle 2. -/
theorem C3_witness :
    let p : list_pool Nat := { pool := [⟨5, 0⟩], free_node_list := 0 }
    (∃ m, p.value 0 = .error (.invalid_argument m)) ∧
    (∃ m, p.next 0 = .error (.invalid_argument m)) ∧
    (∃ m, p.write_value 0 7 = .error (.invalid_argument m)) ∧
    (∃ m, p.write_next 0 0 = .error (.invalid_argument m)) ∧
    (∃ m, p.value 2 = .error (.invalid_argument m)) ∧
    (∃ m, p.next 2 = .error (.invalid_argument m)) ∧
    (∃ m, p.write_value 2 7 = .error (.invalid_argument m)) ∧
    (∃ m, p.write_next 2 0 = .error (.invalid_argument m)) :=
  C3_value_next_invalid_handle { pool := [⟨5, 0⟩], free_node_list := 0 } 2 7 0 (by decide)

/-- Claim C8: advancing the cursor at the terminal state (current handle
is the sentinel) leaves it at the sentinel, succeeds on every pool
whatsoever (so no node's `next` field is read — on pools where any read
would be out of range the advance still succeeds unchanged), and doing
it twice equals doing it once. -/
theorem C8_cursor_advance_at_end_idempotent {V : Type} (p : list_pool V) :
    (Iter.mk p 0).update = .ok (Iter.mk p 0) ∧
    (Iter.mk p 0).inc = .ok (Iter.mk p 0) ∧
    ((Iter.mk p 0).update >>= Iter.update) = (Iter.mk p 0).update := by
  refine ⟨?_, ?_, ?_⟩ <;> simp [Iter.update, Iter.inc]

/-- Claim C10: for every handle in `[1, size()]`, all four checked
accessors succeed — the validation is a pure range check, with no
knowledge of whether the slot is live or on the free chain. -/
theorem C10_range_check_only {V : Type} (p : list_pool V) (h : Nat) (v : V) (j : Nat)
    (h1 : 1 ≤ h) (h2 : h ≤ p.size) :
    (∃ w, p.value h = .ok w) ∧
    (∃ k, p.next h = .ok k) ∧
    (∃ q, p.write_value h v = .ok q) ∧
    (∃ q, p.write_next h j = .ok q) := by
  have h0 : h ≠ 0 := by omega
  obtain ⟨n, hn⟩ := p.node?_isSome h0 h2
  refine ⟨⟨n.value, ?_⟩, ⟨n.next, ?_⟩, ⟨p.setNode h ⟨v, n.next⟩, ?_⟩,
      ⟨p.setNode h ⟨n.value, j⟩, ?_⟩⟩ <;>
    simp [list_pool.value, list_pool.next, list_pool.write_value, list_pool.write_next,
      p.check_index2_ok h0 h2, list_pool.readNode, hn]

/-- Witness for C10 at a concrete input: handle 1 of a one-node pool
whose single node is on the free chain (a freed slot), showing stale
handles are accepted. -/
theorem C10_witness :
    let p : list_pool Nat := { pool := [⟨5, 0⟩], free_node_list := 1 }
    (∃ w, p.value 1 = .ok w) ∧
    (∃ k, p.next 1 = .ok k) ∧
    (∃ q, p.write_value 1 7 = .ok q) ∧
    (∃ q, p.write_next 1 0 = .ok q) :=
  C10_range_check_only { pool := [⟨5, 0⟩], free_node_list := 1 } 1 7 0 (by decide) (by decide)

/-! ### Effect of `setNode` on `node?`, and claim C4 -/

namespace list_pool

variable {V : Type}

theorem setNode_node?_self (p : list_pool V) {h : Nat} (n : Node V)
    (h0 : h ≠ 0) (h2 : h ≤ p.size) : (p.setNode h n).node? h = some n := by
  have : h - 1 < p.pool.length := by
    simp only [size] at h2; omega
  simp [setNode, node?, h0, List.getElem?_set_eq_of_lt n this]

theorem setNode_node?_other (p : list_pool V) {h i : Nat} (n : Node V)
    (h0 : h ≠ 0) (hne : i ≠ h) : (p.setNode h n).node? i = p.node? i := by
  rcases Nat.eq_zero_or_pos i with hi | hi
  · subst hi; simp [node?]
  · have : h - 1 ≠ i - 1 := by omega
    simp [setNode, node?, List.getElem?_set_ne this, Nat.pos_iff_ne_zero.mp hi]

theorem setNode_size (p : list_pool V) (h : Nat) (n : Node V) :
    (p.setNode h n).size = p.size := by
  simp [setNode, size]

theorem setNode_free (p : list_pool V) (h : Nat) (n : Node V) :
    (p.setNode h n).free_node_list = p.free_node_list := rfl

theorem node?_mem_le_size (p : list_pool V) {i : Nat} {n : Node V}
    (hn : p.node? i = some n) : 1 ≤ i ∧ i ≤ p.size := by
  by_cases h0 : i = 0
  · subst h0; simp [node?] at hn
  · simp only [node?, h0, if_false] at hn
    have := List.getElem?_eq_some_iff.mp hn
    obtain ⟨hlt, -⟩ := this
    constructor
    · omega
    · simp only [size]; omega

end list_pool

/-- Claim C4: `free(0)` is a no-op returning the sentinel; `free(h)`
with non-sentinel `h > size()` raises InvalidHandle; `free(h)` with
`h ∈ [1, size()]` returns the freed node's old successor, makes that
node's `next` the old free-chain head and `free_node_list` equal to `h`
(prepending the node to the free chain), keeps the node's stored value,
and changes no other node and not the size. -/
theorem C4_free_effect {V : Type} (p : list_pool V) (h : Nat) :
    p.free 0 = .ok (0, p) ∧
    (h > p.size → ∃ m, p.free h = .error (.invalid_argument m)) ∧
    (1 ≤ h → h ≤ p.size →
      ∃ n p', p.node? h = some n ∧ p.free h = .ok (n.next, p') ∧
        p'.free_node_list = h ∧
        p'.node? h = some ⟨n.value, p.free_node_list⟩ ∧
        (∀ i, i ≠ h → p'.node? i = p.node? i) ∧
        p'.size = p.size) := by
  refine ⟨by simp [list_pool.free, list_pool.is_empty], ?_, ?_⟩
  · intro hgt
    have h0 : (h == 0) = false := by simp; omega
    simp [list_pool.free, list_pool.is_empty, h0, list_pool.check_index1, hgt]
  · intro h1 h2
    have h0 : h ≠ 0 := by omega
    obtain ⟨n, hn⟩ := p.node?_isSome h0 h2
    have hb : (h == 0) = false := by simp [h0]
    refine ⟨n, { p.setNode h ⟨n.value, p.free_node_list⟩ with free_node_list := h },
      hn, ?_, rfl, ?_, ?_, ?_⟩
    · simp [list_pool.free, list_pool.is_empty, hb, p.check_index1_ok h2,
        list_pool.readNode, hn]
    · show (p.setNode h ⟨n.value, p.free_node_list⟩).node? h = _
      exact p.setNode_node?_self _ h0 h2
    · intro i hne
      show (p.setNode h ⟨n.value, p.free_node_list⟩).node? i = _
      exact p.setNode_node?_other _ h0 hne
    · show (p.setNode h ⟨n.value, p.free_node_list⟩).size = _
      simp [list_pool.setNode, list_pool.size]

/-- Witness for C4 at a concrete input: a two-node pool, freeing the head
of the list `1 → 2`. -/
theorem C4_witness :
    let p : list_pool Nat := { pool := [⟨10, 2⟩, ⟨20, 0⟩], free_node_list := 0 }
    p.free 0 = .ok (0, p) ∧
    (3 > p.size → ∃ m, p.free 3 = .error (.invalid_argument m)) ∧
    (1 ≤ 1 → 1 ≤ p.size →
      ∃ n p', p.node? 1 = some n ∧ p.free 1 = .ok (n.next, p') ∧
        p'.free_node_list = 1 ∧
        p'.node? 1 = some ⟨n.value, p.free_node_list⟩ ∧
        (∀ i, i ≠ 1 → p'.node? i = p.node? i) ∧
        p'.size = p.size) := by
  have h := C4_free_effect { pool := [⟨10, 2⟩, ⟨20, 0⟩], free_node_list := 0 } 1
  have h3 := (C4_free_effect (V := Nat) { pool := [⟨10, 2⟩, ⟨20, 0⟩], free_node_list := 0 } 3).2.1
  exact ⟨h.1, fun hgt => h3 hgt, fun _ _ => h.2.2 (by decide) (by decide)⟩

/-! ### Well-formed chains inside the pool -/

/-- `IsList p h l vs`: following `next` links from handle `h` visits
exactly the handles `l` (in order), whose stored values are `vs`, and
ends at the sentinel. -/
inductive IsList {V : Type} (p : list_pool V) : Nat → List Nat → List V → Prop
  | nil : IsList p 0 [] []
  | cons {h : Nat} {n : Node V} {t : List Nat} {ws : List V} :
      p.node? h = some n → IsList p n.next t ws →
      IsList p h (h :: t) (n.value :: ws)

namespace IsList

variable {V : Type} {p p' : list_pool V}

theorem eq_nil_of_zero {l : List Nat} {vs : List V} (hl : IsList p 0 l vs) :
    l = [] ∧ vs = [] := by
  cases hl with
  | nil => exact ⟨rfl, rfl⟩
  | cons hn _ => simp [list_pool.node?] at hn

theorem of_ne_zero {h : Nat} {l : List Nat} {vs : List V} (hl : IsList p h l vs)
    (h0 : h ≠ 0) :
    ∃ n t ws, p.node? h = some n ∧ l = h :: t ∧ vs = n.value :: ws ∧
      IsList p n.next t ws := by
  cases hl with
  | nil => exact absurd rfl h0
  | cons hn ht => exact ⟨_, _, _, hn, rfl, rfl, ht⟩

theorem frame {h : Nat} {l : List Nat} {vs : List V} (hl : IsList p h l vs)
    (hfr : ∀ i ∈ l, p'.node? i = p.node? i) : IsList p' h l vs := by
  induction hl with
  | nil => exact nil
  | cons hn ht ih =>
    refine cons ?_ (ih fun i hi => hfr i (List.mem_cons_of_mem _ hi))
    rw [hfr _ (List.mem_cons_self _ _)]
    exact hn

theorem det {h : Nat} {l l' : List Nat} {vs vs' : List V}
    (h1 : IsList p h l vs) (h2 : IsList p h l' vs') : l = l' ∧ vs = vs' := by
  induction h1 generalizing l' vs' with
  | nil => exact ⟨h2.eq_nil_of_zero.1.symm, h2.eq_nil_of_zero.2.symm⟩
  | cons hn ht ih =>
    cases h2 with
    | nil => simp [list_pool.node?] at hn
    | cons hn' ht' =>
      rw [hn] at hn'
      cases hn'
      obtain ⟨hl, hv⟩ := ih ht'
      exact ⟨by rw [hl], by rw [hv]⟩

theorem mem_bounds {h : Nat} {l : List Nat} {vs : List V} (hl : IsList p h l vs) :
    ∀ i ∈ l, 1 ≤ i ∧ i ≤ p.size := by
  induction hl with
  | nil => intro i hi; simp at hi
  | cons hn ht ih =>
    intro i hi
    rcases List.mem_cons.mp hi with rfl | hi
    · exact p.node?_mem_le_size hn
    · exact ih i hi

theorem values_length {h : Nat} {l : List Nat} {vs : List V} (hl : IsList p h l vs) :
    vs.length = l.length := by
  induction hl with
  | nil => rfl
  | cons _ _ ih => simpa using ih

theorem mem_shorter {x : Nat} {t : List Nat} {ws : List V} (ht : IsList p x t ws) :
    ∀ k ∈ t, ∃ s us, IsList p k s us ∧ s.length ≤ t.length := by
  induction ht with
  | nil => intro k hk; simp at hk
  | cons hn ht ih =>
    intro k hk
    rcases List.mem_cons.mp hk with rfl | hk
    · exact ⟨_, _, cons hn ht, le_refl _⟩
    · obtain ⟨s, us, hs, hlen⟩ := ih k hk
      exact ⟨s, us, hs, hlen.trans (Nat.le_succ _)⟩

theorem nodup {h : Nat} {l : List Nat} {vs : List V} (hl : IsList p h l vs) :
    l.Nodup := by
  induction hl with
  | nil => exact List.nodup_nil
  | cons hn ht ih =>
    refine List.nodup_cons.mpr ⟨?_, ih⟩
    intro hmem
    obtain ⟨s, us, hs, hlen⟩ := ht.mem_shorter _ hmem
    obtain ⟨hls, -⟩ := hs.det (cons hn ht)
    rw [hls] at hlen
    simp at hlen

theorem length_le_size {h : Nat} {l : List Nat} {vs : List V} (hl : IsList p h l vs) :
    l.length ≤ p.size := by
  have hsub : l.toFinset ⊆ Finset.Icc 1 p.size := by
    intro i hi
    obtain ⟨h1, h2⟩ := hl.mem_bounds i (List.mem_toFinset.mp hi)
    exact Finset.mem_Icc.mpr ⟨h1, h2⟩
  have hcard := Finset.card_le_card hsub
  rw [List.toFinset_card_of_nodup hl.nodup, Nat.card_Icc] at hcard
  omega

end IsList

/-! ### The executable walks compute `IsList` -/

namespace list_pool

variable {V : Type} {p : list_pool V}

theorem chain_isList {fuel h : Nat} {l : List Nat} (hc : p.chain fuel h = some l) :
    ∃ vs, IsList p h l vs := by
  induction fuel generalizing h l with
  | zero =>
    by_cases h0 : h = 0
    · subst h0
      simp [chain] at hc
      subst hc
      exact ⟨[], IsList.nil⟩
    · simp [chain, h0] at hc
  | succ fuel ih =>
    by_cases h0 : h = 0
    · subst h0
      simp [chain] at hc
      subst hc
      exact ⟨[], IsList.nil⟩
    · simp only [chain, h0, if_false] at hc
      cases hn : p.node? h with
      | none => rw [hn] at hc; simp at hc
      | some n =>
        rw [hn] at hc
        simp only [Option.map_eq_some'] at hc
        obtain ⟨t, hct, rfl⟩ := hc
        obtain ⟨ws, hws⟩ := ih hct
        exact ⟨n.value :: ws, IsList.cons hn hws⟩

theorem isList_chain {h : Nat} {l : List Nat} {vs : List V}
    (hl : IsList p h l vs) : ∀ {fuel : Nat}, l.length ≤ fuel → p.chain fuel h = some l := by
  induction hl with
  | nil =>
    intro fuel _
    cases fuel <;> simp [chain]
  | cons hn ht ih =>
    intro fuel hfuel
    rename_i hh n t ws
    cases fuel with
    | zero => simp at hfuel
    | succ fuel =>
      have h0 : hh ≠ 0 := by
        intro h0
        rw [h0] at hn
        simp [node?] at hn
      simp only [chain, h0, if_false, hn]
      rw [ih (by simpa using hfuel)]
      rfl

theorem isList_traverse {h : Nat} {l : List Nat} {vs : List V}
    (hl : IsList p h l vs) : ∀ {fuel : Nat}, l.length ≤ fuel → p.traverse fuel h = some vs := by
  induction hl with
  | nil =>
    intro fuel _
    cases fuel <;> simp [traverse]
  | cons hn ht ih =>
    intro fuel hfuel
    rename_i hh n t ws
    cases fuel with
    | zero => simp at hfuel
    | succ fuel =>
      have h0 : hh ≠ 0 := by
        intro h0
        rw [h0] at hn
        simp [node?] at hn
      simp only [traverse, h0, if_false, hn]
      rw [ih (by simpa using hfuel)]
      rfl

theorem traverse_isList {fuel h : Nat} {vs : List V} (hc : p.traverse fuel h = some vs) :
    ∃ l, IsList p h l vs := by
  induction fuel generalizing h vs with
  | zero =>
    by_cases h0 : h = 0
    · subst h0
      simp [traverse] at hc
      subst hc
      exact ⟨[], IsList.nil⟩
    · simp [traverse, h0] at hc
  | succ fuel ih =>
    by_cases h0 : h = 0
    · subst h0
      simp [traverse] at hc
      subst hc
      exact ⟨[], IsList.nil⟩
    · simp only [traverse, h0, if_false] at hc
      cases hn : p.node? h with
      | none => rw [hn] at hc; simp at hc
      | some n =>
        rw [hn] at hc
        simp only [Option.map_eq_some'] at hc
        obtain ⟨t, hct, rfl⟩ := hc
        obtain ⟨l, hws⟩ := ih hct
        exact ⟨h :: l, IsList.cons hn hws⟩

end list_pool

namespace IsList

variable {V : Type} {p p' : list_pool V}

theorem eq_zero_of_nil {x : Nat} {ws : List V} (hl : IsList p x [] ws) : x = 0 := by
  cases hl; rfl

theorem head_ne_zero {h : Nat} {l : List Nat} {vs : List V} (hl : IsList p h l vs)
    (hne : l ≠ []) : h ≠ 0 := by
  intro h0
  subst h0
  exact hne hl.eq_nil_of_zero.1

theorem values_nil {x : Nat} {ws : List V} (hl : IsList p x [] ws) : ws = [] := by
  cases hl; rfl

end IsList

namespace list_pool

variable {V : Type} {p : list_pool V}

theorem isList_get_tail {h : Nat} {l : List Nat} {vs : List V}
    (hl : IsList p h l vs) (hne : l ≠ []) :
    ∀ {fuel : Nat}, l.length ≤ fuel →
      ∃ tl, l.getLast? = some tl ∧ p.get_tail fuel h = .ok tl := by
  induction hl with
  | nil => exact absurd rfl hne
  | cons hn ht ih =>
    rename_i hh n t ws
    intro fuel hfuel
    cases fuel with
    | zero => simp at hfuel
    | succ fuel =>
      cases t with
      | nil =>
        have hz : n.next = 0 := ht.eq_zero_of_nil
        exact ⟨hh, rfl, by simp [get_tail, hn, hz]⟩
      | cons t0 t' =>
        have hz : n.next ≠ 0 := by
          intro h0
          rw [h0] at ht
          exact absurd ht.eq_nil_of_zero.1 (by simp)
        obtain ⟨tl, htl, hgt⟩ := ih (by simp) (by simpa using hfuel)
        refine ⟨tl, ?_, ?_⟩
        · rw [List.getLast?_cons_cons] at *
          exact htl
        · simp [get_tail, hn, hz, hgt]

theorem node?_pool_congr {q : list_pool V} (hq : q.pool = p.pool) (i : Nat) :
    q.node? i = p.node? i := by
  simp [node?, hq]

theorem node?_append_le {q : list_pool V} (x : Node V) (hq : q.pool = p.pool ++ [x])
    {i : Nat} (hi : i ≤ p.size) : q.node? i = p.node? i := by
  by_cases h0 : i = 0
  · simp [node?, h0]
  · have hlt : i - 1 < p.pool.length := by
      simp only [size] at hi; omega
    simp [node?, h0, hq, List.getElem?_append_left hlt]

theorem node?_append_new {q : list_pool V} (x : Node V) (hq : q.pool = p.pool ++ [x]) :
    q.node? (p.size + 1) = some x := by
  have h0 : p.size + 1 ≠ 0 := by omega
  simp only [node?, h0, if_false, hq, Nat.add_sub_cancel]
  exact List.getElem?_concat_length p.pool x

end list_pool

namespace IsList

variable {V : Type} {p p' : list_pool V}

/-- Linking a fresh terminal node `j` after the tail of a chain extends
the chain by one. -/
theorem append {h tl j : Nat} {l : List Nat} {vs : List V} {v : V}
    (hl : IsList p h l vs) (hlast : l.getLast? = some tl)
    (hfr : ∀ i ∈ l, i ≠ tl → p'.node? i = p.node? i)
    (htl : ∀ ntl, p.node? tl = some ntl → p'.node? tl = some ⟨ntl.value, j⟩)
    (hnew : p'.node? j = some ⟨v, 0⟩)
    (hjl : j ∉ l) :
    IsList p' h (l ++ [j]) (vs ++ [v]) := by
  induction hl with
  | nil => simp at hlast
  | cons hn ht ih =>
    rename_i hh n t ws
    cases t with
    | nil =>
      have htlh : tl = hh := by simpa using hlast.symm
      subst htlh
      have hws : ws = [] := ht.values_nil
      subst hws
      exact @IsList.cons V p' tl ⟨n.value, j⟩ [j] [v] (htl n hn) (cons hnew nil)
    | cons t0 t' =>
      have hnodup := (IsList.cons hn ht).nodup
      have hhtl : hh ≠ tl := by
        intro heq
        have hmem : tl ∈ t0 :: t' := by
          have hl2 := hlast
          rw [List.getLast?_cons_cons] at hl2
          exact List.mem_of_mem_getLast? hl2
        rw [heq] at hnodup
        exact (List.nodup_cons.mp hnodup).1 hmem
      refine cons ?_ ?_
      · rw [hfr hh (by simp) hhtl]
        exact hn
      · refine ih ?_ ?_ ?_
        · rw [List.getLast?_cons_cons] at hlast
          exact hlast
        · intro i hi hineq
          exact hfr i (List.mem_cons_of_mem _ hi) hineq
        · intro hmem
          exact hjl (List.mem_cons_of_mem _ hmem)

end IsList

/-! ### Effect lemmas for the insertion operations -/

namespace list_pool

variable {V : Type}

theorem readNode_ok (p : list_pool V) {i : Nat} {n : Node V} (hn : p.node? i = some n) :
    p.readNode i = .ok n := by
  simp [readNode, hn]

theorem write_next_ok (p : list_pool V) {i : Nat} (h0 : i ≠ 0) (h2 : i ≤ p.size)
    {n : Node V} (hn : p.node? i = some n) (j : Nat) :
    p.write_next i j = .ok (p.setNode i ⟨n.value, j⟩) := by
  simp [write_next, p.check_index2_ok h0 h2, p.readNode_ok hn]

theorem fpush_front_grow (p : list_pool V) (v : V) {head : Nat} (hh : head ≤ p.size)
    (hf : p.free_node_list = 0) :
    p.fpush_front v head
      = .ok (p.size + 1, { pool := p.pool ++ [⟨v, head⟩], free_node_list := 0 }) := by
  simp [fpush_front, p.check_index1_ok hh, is_empty, hf, size]

theorem fpush_front_recycle (p : list_pool V) (v : V) {head f : Nat} (hh : head ≤ p.size)
    (hf : p.free_node_list = f) (h0 : f ≠ 0) {nf : Node V} (hnf : p.node? f = some nf) :
    ∃ q : list_pool V, p.fpush_front v head = .ok (f, q) ∧
      q.free_node_list = nf.next ∧
      q.node? f = some ⟨v, head⟩ ∧
      (∀ i, i ≠ f → q.node? i = p.node? i) ∧
      q.size = p.size := by
  have hfb : p.size ≥ f := (p.node?_mem_le_size hnf).2
  refine ⟨({ p with free_node_list := nf.next } : list_pool V).setNode f ⟨v, head⟩,
    ?_, ?_, ?_, ?_, ?_⟩
  · simp [fpush_front, p.check_index1_ok hh, is_empty, hf, h0, p.readNode_ok hnf]
  · simp [setNode]
  · exact setNode_node?_self _ _ h0 hfb
  · intro i hi
    rw [setNode_node?_other _ _ h0 hi]
    exact node?_pool_congr rfl i
  · simp [setNode, size]

theorem fpush_back_grow (p : list_pool V) (v : V) {head : Nat} {l : List Nat} {vs : List V}
    (h0 : head ≠ 0) (hl : IsList p head l vs) (hf : p.free_node_list = 0) :
    ∃ (q : list_pool V) (tl : Nat) (ntl : Node V),
      l.getLast? = some tl ∧ p.node? tl = some ntl ∧
      p.fpush_back v head = .ok (head, q) ∧
      q.free_node_list = 0 ∧ q.size = p.size + 1 ∧
      q.node? (p.size + 1) = some ⟨v, 0⟩ ∧
      q.node? tl = some ⟨ntl.value, p.size + 1⟩ ∧
      (∀ i, i ≠ tl → i ≤ p.size → q.node? i = p.node? i) := by
  have hlne : l ≠ [] := by
    intro hnil
    subst hnil
    exact h0 hl.eq_zero_of_nil
  have hfuel : l.length ≤ p.size + 1 := Nat.le_succ_of_le hl.length_le_size
  obtain ⟨tl, htl, hgt⟩ := p.isList_get_tail hl hlne hfuel
  have htlmem : tl ∈ l := List.mem_of_mem_getLast? htl
  obtain ⟨htl1, htl2⟩ := hl.mem_bounds tl htlmem
  have htl0 : tl ≠ 0 := by omega
  obtain ⟨ntl, hntl⟩ := p.node?_isSome htl0 htl2
  set p1 : list_pool V := { p with pool := p.pool ++ [⟨v, 0⟩] } with hp1
  have hp1pool : p1.pool = p.pool ++ [⟨v, 0⟩] := rfl
  have hp1size : p1.size = p.size + 1 := by simp [hp1, size]
  have hn1 : p1.node? tl = some ntl := by
    rw [node?_append_le (p := p) _ hp1pool htl2]
    exact hntl
  have hwn : p1.write_next tl p1.size
      = .ok (p1.setNode tl ⟨ntl.value, p.size + 1⟩) := by
    rw [p1.write_next_ok htl0 (by omega) hn1, hp1size]
  refine ⟨p1.setNode tl ⟨ntl.value, p.size + 1⟩, tl, ntl, htl, hntl, ?_, ?_, ?_, ?_, ?_, ?_⟩
  · show (if p.is_empty head then p.fpush_front v head else _) = _
    rw [if_neg (by simp [is_empty, h0])]
    rw [hgt]
    show (if p.is_empty p.free_node_list then _ else _ : Except PoolErr (Nat × list_pool V)) = _
    rw [if_pos (by simp [is_empty, hf])]
    show (p1.write_next tl p1.size) >>= _ = _
    rw [hwn]
    rfl
  · simp [setNode, hp1, hf]
  · rw [setNode_size, hp1size]
  · rw [setNode_node?_other _ _ htl0 (by omega)]
    exact node?_append_new _ hp1pool
  · exact setNode_node?_self _ _ htl0 (by omega)
  · intro i hi hile
    rw [setNode_node?_other _ _ htl0 hi]
    exact node?_append_le _ hp1pool hile

theorem fpush_back_recycle (p : list_pool V) (v : V) {head f tl : Nat}
    {l : List Nat} {vs : List V}
    (h0 : head ≠ 0) (hl : IsList p head l vs) (hf : p.free_node_list = f) (hf0 : f ≠ 0)
    {nf : Node V} (hnf : p.node? f = some nf)
    (htl : l.getLast? = some tl) (hne : tl ≠ f) :
    ∃ (q : list_pool V) (ntl : Node V),
      p.node? tl = some ntl ∧
      p.fpush_back v head = .ok (head, q) ∧
      q.free_node_list = nf.next ∧ q.size = p.size ∧
      q.node? f = some ⟨v, 0⟩ ∧
      q.node? tl = some ⟨ntl.value, f⟩ ∧
      (∀ i, i ≠ tl → i ≠ f → q.node? i = p.node? i) := by
  have hlne : l ≠ [] := by
    intro hnil
    subst hnil
    exact h0 hl.eq_zero_of_nil
  have hfuel : l.length ≤ p.size + 1 := Nat.le_succ_of_le hl.length_le_size
  obtain ⟨tl', htl', hgt⟩ := p.isList_get_tail hl hlne hfuel
  have htleq : tl' = tl := by
    rw [htl'] at htl
    exact Option.some_injective _ htl
  subst htleq
  have htlmem : tl' ∈ l := List.mem_of_mem_getLast? htl'
  obtain ⟨htl1, htl2⟩ := hl.mem_bounds tl' htlmem
  have htl0 : tl' ≠ 0 := by omega
  obtain ⟨ntl, hntl⟩ := p.node?_isSome htl0 htl2
  have hfb : f ≤ p.size := (p.node?_mem_le_size hnf).2
  set p1 : list_pool V := p.setNode tl' ⟨ntl.value, f⟩ with hp1
  have hwn : p.write_next tl' f = .ok p1 := p.write_next_ok htl0 htl2 hntl f
  have hn1f : p1.node? f = some nf := by
    rw [hp1, setNode_node?_other _ _ htl0 (Ne.symm hne)]
    exact hnf
  have hp1size : p1.size = p.size := by simp [hp1, setNode, size]
  set p2 : list_pool V := { p1 with free_node_list := nf.next } with hp2
  have hp2n : ∀ i, p2.node? i = p1.node? i := fun i => node?_pool_congr rfl i
  refine ⟨p2.setNode f ⟨v, 0⟩, ntl, hntl, ?_, ?_, ?_, ?_, ?_, ?_⟩
  · show (if p.is_empty head then p.fpush_front v head else _) = _
    rw [if_neg (by simp [is_empty, h0])]
    rw [hgt]
    show (if p.is_empty p.free_node_list then _ else _ : Except PoolErr (Nat × list_pool V)) = _
    rw [if_neg (by simp [is_empty, hf, hf0])]
    show (p.write_next tl' p.free_node_list) >>= _ = _
    rw [hf, hwn]
    simp only [exceptBind_ok]
    rw [p1.readNode_ok hn1f]
    simp only [exceptBind_ok]
    rfl
  · simp [setNode, hp2]
  · rw [setNode_size, hp2, show p2.size = p1.size from rfl, hp1size]
  · refine setNode_node?_self _ _ hf0 ?_
    rw [show p2.size = p1.size from rfl, hp1size]
    exact hfb
  · rw [setNode_node?_other _ _ hf0 hne, hp2n]
    rw [hp1]
    exact setNode_node?_self _ _ htl0 htl2
  · intro i hi1 hi2
    rw [setNode_node?_other _ _ hf0 hi2, hp2n]
    rw [hp1, setNode_node?_other _ _ htl0 hi1]

end list_pool

/-! ### Claims C7 and C6 -/

/-- Claim C7: `push_back(v, 0)` is exactly `push_front(v, 0)`; with a
valid non-sentinel head — a head whose chain is well formed and whose
tail is not simultaneously the head of the free chain, as the pool
invariant guarantees — `push_back` returns `head` itself, and the node
`j` linked after the old tail holds value `v` and successor `0`. -/
theorem C7_push_back_delegation_and_append {V : Type} (p : list_pool V) (v : V) (head : Nat) :
    p.push_back v 0 = p.push_front v 0 ∧
    (head ≠ 0 → ∀ l fl, p.chain (p.size + 1) head = some l →
      p.chain (p.size + 1) p.free_node_list = some fl →
      ∀ tl, l.getLast? = some tl → tl ∉ fl →
      ∃ (q : list_pool V) (j : Nat) (ntl : Node V),
        p.push_back v head = .ok (head, q) ∧
        p.node? tl = some ntl ∧
        q.node? tl = some ⟨ntl.value, j⟩ ∧
        q.node? j = some ⟨v, 0⟩ ∧ j ≠ 0) := by
  constructor
  · show p.fpush_back v 0 = _
    simp [list_pool.fpush_back, list_pool.is_empty, list_pool.push_front]
  · intro h0 l fl hcl hcfl tl htl htlfl
    obtain ⟨vs, hl⟩ := p.chain_isList hcl
    obtain ⟨fvs, hfl⟩ := p.chain_isList hcfl
    by_cases hf : p.free_node_list = 0
    · obtain ⟨q, tl', ntl, htl', hntl, heq, -, -, hnew, htlq, -⟩ :=
        p.fpush_back_grow v h0 hl hf
      have : tl' = tl := by rw [htl'] at htl; exact Option.some_injective _ htl
      subst this
      exact ⟨q, p.size + 1, ntl, heq, hntl, htlq, hnew, by omega⟩
    · obtain ⟨nf, tfl, fws, hnf, hfleq, -, -⟩ := hfl.of_ne_zero hf
      have htlf : tl ≠ p.free_node_list := by
        intro heq
        rw [heq, hfleq] at htlfl
        exact htlfl (List.mem_cons_self _ _)
      obtain ⟨q, ntl, hntl, heq, -, -, hnewq, htlq, -⟩ :=
        p.fpush_back_recycle v h0 hl rfl hf hnf htl htlf
      exact ⟨q, p.free_node_list, ntl, heq, hntl, htlq, hnewq, hf⟩

/-- Witness for C7 at a concrete input: the two-node pool holding the
list `1 → 2` with empty free chain, pushing at the back of handle 1. -/
theorem C7_witness :
    let p : list_pool Nat := { pool := [⟨10, 2⟩, ⟨20, 0⟩], free_node_list := 0 }
    p.push_back 30 0 = p.push_front 30 0 ∧
    (1 ≠ 0 → ∀ l fl, p.chain (p.size + 1) 1 = some l →
      p.chain (p.size + 1) p.free_node_list = some fl →
      ∀ tl, l.getLast? = some tl → tl ∉ fl →
      ∃ (q : list_pool Nat) (j : Nat) (ntl : Node Nat),
        p.push_back 30 1 = .ok (1, q) ∧
        p.node? tl = some ntl ∧
        q.node? tl = some ⟨ntl.value, j⟩ ∧
        q.node? j = some ⟨30, 0⟩ ∧ j ≠ 0) :=
  C7_push_back_delegation_and_append { pool := [⟨10, 2⟩, ⟨20, 0⟩], free_node_list := 0 } 30 1

/-- Claim C6: `free_list(0)` is a no-op returning the sentinel;
`free_list(h)` on a non-sentinel out-of-range head raises InvalidHandle;
on a well-formed non-sentinel head it returns the sentinel and splices
the whole chain onto the free chain: the tail node's `next` becomes the
old free-chain head, `free_node_list` becomes `head`, and nothing else
(no other node, not the size) changes. -/
theorem C6_free_list_splice {V : Type} (p : list_pool V) (head : Nat) :
    p.free_list 0 = .ok (0, p) ∧
    (head > p.size → ∃ m, p.free_list head = .error (.invalid_argument m)) ∧
    (head ≠ 0 → ∀ l, p.chain (p.size + 1) head = some l →
      ∃ (tl : Nat) (ntl : Node V) (q : list_pool V),
        l.getLast? = some tl ∧ p.node? tl = some ntl ∧
        p.free_list head = .ok (0, q) ∧
        q.free_node_list = head ∧
        q.node? tl = some ⟨ntl.value, p.free_node_list⟩ ∧
        (∀ i, i ≠ tl → q.node? i = p.node? i) ∧
        q.size = p.size) := by
  refine ⟨by simp [list_pool.free_list, list_pool.is_empty], ?_, ?_⟩
  · intro hgt
    have h0 : head ≠ 0 := by omega
    simp [list_pool.free_list, list_pool.is_empty, h0, list_pool.check_index1, hgt]
  · intro h0 l hcl
    obtain ⟨vs, hl⟩ := p.chain_isList hcl
    have hlne : l ≠ [] := by
      intro hnil
      subst hnil
      exact h0 hl.eq_zero_of_nil
    have hfuel : l.length ≤ p.size + 1 := Nat.le_succ_of_le hl.length_le_size
    obtain ⟨tl, htl, hgt⟩ := p.isList_get_tail hl hlne hfuel
    have htlmem : tl ∈ l := List.mem_of_mem_getLast? htl
    obtain ⟨htl1, htl2⟩ := hl.mem_bounds tl htlmem
    have htl0 : tl ≠ 0 := by omega
    obtain ⟨ntl, hntl⟩ := p.node?_isSome htl0 htl2
    have hhead : head ≤ p.size := (hl.mem_bounds head (by
      obtain ⟨n, t, ws, -, rfl, -, -⟩ := hl.of_ne_zero h0
      exact List.mem_cons_self _ _)).2
    refine ⟨tl, ntl,
      { p.setNode tl ⟨ntl.value, p.free_node_list⟩ with free_node_list := head },
      htl, hntl, ?_, rfl, ?_, ?_, ?_⟩
    · show (if p.is_empty head then _ else _) = _
      rw [if_neg (by simp [list_pool.is_empty, h0])]
      show (p.check_index1 head) >>= _ = _
      rw [p.check_index1_ok hhead]
      simp only [exceptBind_ok]
      rw [hgt]
      simp only [exceptBind_ok]
      rw [p.readNode_ok hntl]
      simp only [exceptBind_ok]
      rfl
    · show (p.setNode tl ⟨ntl.value, p.free_node_list⟩).node? tl = _
      exact p.setNode_node?_self _ htl0 htl2
    · intro i hi
      show (p.setNode tl ⟨ntl.value, p.free_node_list⟩).node? i = _
      exact p.setNode_node?_other _ htl0 hi
    · show (p.setNode tl ⟨ntl.value, p.free_node_list⟩).size = _
      simp [list_pool.setNode, list_pool.size]

/-- Witness for C6 at a concrete input: releasing the two-node list
`1 → 2` while the free chain holds node 3. -/
theorem C6_witness :
    let p : list_pool Nat := { pool := [⟨10, 2⟩, ⟨20, 0⟩, ⟨99, 0⟩], free_node_list := 3 }
    p.free_list 0 = .ok (0, p) ∧
    (4 > p.size → ∃ m, p.free_list 4 = .error (.invalid_argument m)) ∧
    (1 ≠ 0 → ∀ l, p.chain (p.size + 1) 1 = some l →
      ∃ (tl : Nat) (ntl : Node Nat) (q : list_pool Nat),
        l.getLast? = some tl ∧ p.node? tl = some ntl ∧
        p.free_list 1 = .ok (0, q) ∧
        q.free_node_list = 1 ∧
        q.node? tl = some ⟨ntl.value, p.free_node_list⟩ ∧
        (∀ i, i ≠ tl → q.node? i = p.node? i) ∧
        q.size = p.size) := by
  have h1 := C6_free_list_splice
    (V := Nat) { pool := [⟨10, 2⟩, ⟨20, 0⟩, ⟨99, 0⟩], free_node_list := 3 } 1
  have h4 := (C6_free_list_splice
    (V := Nat) { pool := [⟨10, 2⟩, ⟨20, 0⟩, ⟨99, 0⟩], free_node_list := 3 } 4).2.1
  exact ⟨h1.1, fun hgt => h4 hgt, h1.2.2⟩
/-! ### Inversion lemmas: successful operations and the size -/

namespace list_pool

variable {V : Type}

theorem readNode_none (p : list_pool V) {i : Nat} (hn : p.node? i = none) :
    p.readNode i = .error (.undefined_behavior "out-of-range node access") := by
  simp [readNode, hn]

theorem write_next_ok_inv {p q : list_pool V} {i j : Nat}
    (heq : p.write_next i j = .ok q) :
    ∃ n, p.node? i = some n ∧ q = p.setNode i ⟨n.value, j⟩ := by
  unfold write_next at heq
  cases hc : p.check_index2 i with
  | error e => rw [hc] at heq; simp at heq
  | ok u =>
    rw [hc] at heq
    simp only [exceptBind_ok] at heq
    cases hn : p.node? i with
    | none => rw [p.readNode_none hn] at heq; simp at heq
    | some n =>
      rw [p.readNode_ok hn] at heq
      simp only [exceptBind_ok] at heq
      exact ⟨n, rfl, by
        have h2 := heq
        simp only [pure, Except.pure, Except.ok.injEq] at h2
        exact h2.symm⟩

theorem write_value_ok_inv {p q : list_pool V} {i : Nat} {v : V}
    (heq : p.write_value i v = .ok q) :
    ∃ n, p.node? i = some n ∧ q = p.setNode i ⟨v, n.next⟩ := by
  unfold write_value at heq
  cases hc : p.check_index2 i with
  | error e => rw [hc] at heq; simp at heq
  | ok u =>
    rw [hc] at heq
    simp only [exceptBind_ok] at heq
    cases hn : p.node? i with
    | none => rw [p.readNode_none hn] at heq; simp at heq
    | some n =>
      rw [p.readNode_ok hn] at heq
      simp only [exceptBind_ok] at heq
      exact ⟨n, rfl, by
        have h2 := heq
        simp only [pure, Except.pure, Except.ok.injEq] at h2
        exact h2.symm⟩

theorem fpush_front_ok_inv {p q : list_pool V} {v : V} {h h' : Nat}
    (heq : p.fpush_front v h = .ok (h', q)) :
    (p.free_node_list = 0 ∧ h' = p.size + 1 ∧
      q = { pool := p.pool ++ [⟨v, h⟩], free_node_list := 0 }) ∨
    (p.free_node_list ≠ 0 ∧ h' = p.free_node_list ∧
      ∃ nf, p.node? p.free_node_list = some nf ∧
        q = ({ p with free_node_list := nf.next } : list_pool V).setNode
              p.free_node_list ⟨v, h⟩) := by
  unfold fpush_front at heq
  cases hc : p.check_index1 h with
  | error e => rw [hc] at heq; simp at heq
  | ok u =>
    rw [hc] at heq
    simp only [exceptBind_ok] at heq
    by_cases hf : p.free_node_list = 0
    · left
      simp only [is_empty, hf, beq_self_eq_true, if_true, pure, Except.pure,
        Except.ok.injEq, Prod.mk.injEq] at heq
      refine ⟨hf, ?_, ?_⟩
      · rw [← heq.1]
        simp [size]
      · exact heq.2.symm
    · right
      have hfb : (p.free_node_list == 0) = false := by simp [hf]
      simp only [is_empty, hfb, Bool.false_eq_true, if_false] at heq
      cases hn : p.node? p.free_node_list with
      | none => rw [p.readNode_none hn] at heq; simp at heq
      | some nf =>
        rw [p.readNode_ok hn] at heq
        simp only [exceptBind_ok, pure, Except.pure, Except.ok.injEq, Prod.mk.injEq] at heq
        exact ⟨hf, heq.1.symm, nf, rfl, heq.2.symm⟩

theorem fpush_front_ok_size {p q : list_pool V} {v : V} {h h' : Nat}
    (heq : p.fpush_front v h = .ok (h', q)) :
    (p.free_node_list = 0 ∧ q.size = p.size + 1) ∨
    (p.free_node_list ≠ 0 ∧ q.size = p.size) := by
  rcases fpush_front_ok_inv heq with ⟨hf, -, rfl⟩ | ⟨hf, -, nf, -, rfl⟩
  · exact Or.inl ⟨hf, by simp [size]⟩
  · exact Or.inr ⟨hf, by simp [size, setNode]⟩

theorem fpush_back_ok_size {p q : list_pool V} {v : V} {h h' : Nat}
    (heq : p.fpush_back v h = .ok (h', q)) :
    (p.free_node_list = 0 ∧ q.size = p.size + 1) ∨
    (p.free_node_list ≠ 0 ∧ q.size = p.size) := by
  unfold fpush_back at heq
  by_cases h0 : h = 0
  · simp only [is_empty, h0, beq_self_eq_true, if_true] at heq
    exact fpush_front_ok_size heq
  · have h0b : (h == 0) = false := by simp [h0]
    simp only [is_empty, h0b, Bool.false_eq_true, if_false] at heq
    cases hgt : p.get_tail (p.size + 1) h with
    | error e => rw [hgt] at heq; simp at heq
    | ok tl =>
      rw [hgt] at heq
      simp only [exceptBind_ok] at heq
      by_cases hf : p.free_node_list = 0
      · left
        simp only [is_empty, hf, beq_self_eq_true, if_true] at heq
        set P1 : list_pool V := { pool := p.pool ++ [⟨v, 0⟩], free_node_list := 0 } with hP1
        cases hwn : P1.write_next tl P1.size with
        | error e => rw [hwn] at heq; simp at heq
        | ok q2 =>
          rw [hwn] at heq
          simp only [exceptBind_ok, pure, Except.pure, Except.ok.injEq,
            Prod.mk.injEq] at heq
          obtain ⟨n2, -, hq2⟩ := write_next_ok_inv hwn
          refine ⟨hf, ?_⟩
          rw [← heq.2, hq2]
          simp [size, setNode]
      · right
        have hfb : (p.free_node_list == 0) = false := by simp [hf]
        simp only [is_empty, hfb, Bool.false_eq_true, if_false] at heq
        cases hwn : p.write_next tl p.free_node_list with
        | error e => rw [hwn] at heq; simp at heq
        | ok p1 =>
          rw [hwn] at heq
          simp only [exceptBind_ok] at heq
          cases hrn : p1.readNode p.free_node_list with
          | error e => rw [hrn] at heq; simp at heq
          | ok nf =>
            rw [hrn] at heq
            simp only [exceptBind_ok, pure, Except.pure, Except.ok.injEq,
              Prod.mk.injEq] at heq
            obtain ⟨n1, -, hp1⟩ := write_next_ok_inv hwn
            refine ⟨hf, ?_⟩
            rw [← heq.2, hp1]
            simp [size, setNode]

theorem free_ok_size {p q : list_pool V} {h h' : Nat}
    (heq : p.free h = .ok (h', q)) : q.size = p.size := by
  unfold free at heq
  by_cases h0 : h = 0
  · simp only [is_empty, h0, beq_self_eq_true, if_true, Except.ok.injEq,
      Prod.mk.injEq] at heq
    rw [← heq.2]
  · have h0b : (h == 0) = false := by simp [h0]
    simp only [is_empty, h0b, Bool.false_eq_true, if_false] at heq
    cases hc : p.check_index1 h with
    | error e => rw [hc] at heq; simp at heq
    | ok u =>
      rw [hc] at heq
      simp only [exceptBind_ok] at heq
      cases hn : p.node? h with
      | none => rw [p.readNode_none hn] at heq; simp at heq
      | some n =>
        rw [p.readNode_ok hn] at heq
        simp only [exceptBind_ok, pure, Except.pure, Except.ok.injEq,
          Prod.mk.injEq] at heq
        rw [← heq.2]
        simp [size, setNode]

theorem free_list_ok_size {p q : list_pool V} {h h' : Nat}
    (heq : p.free_list h = .ok (h', q)) : q.size = p.size := by
  unfold free_list at heq
  by_cases h0 : h = 0
  · simp only [is_empty, h0, beq_self_eq_true, if_true, Except.ok.injEq,
      Prod.mk.injEq] at heq
    rw [← heq.2]
  · have h0b : (h == 0) = false := by simp [h0]
    simp only [is_empty, h0b, Bool.false_eq_true, if_false] at heq
    cases hc : p.check_index1 h with
    | error e => rw [hc] at heq; simp at heq
    | ok u =>
      rw [hc] at heq
      simp only [exceptBind_ok] at heq
      cases hgt : p.get_tail (p.size + 1) h with
      | error e => rw [hgt] at heq; simp at heq
      | ok tl =>
        rw [hgt] at heq
        simp only [exceptBind_ok] at heq
        cases hn : p.node? tl with
        | none => rw [p.readNode_none hn] at heq; simp at heq
        | some n =>
          rw [p.readNode_ok hn] at heq
          simp only [exceptBind_ok, pure, Except.pure, Except.ok.injEq,
            Prod.mk.injEq] at heq
          rw [← heq.2]
          simp [size, setNode]

end list_pool
/-! ### Operation sequences -/

/-- Bind-free map on a successful `Except` computation. -/
@[simp] theorem exceptMap_ok {e a b : Type} (f : a → b) (x : a) :
    (Except.ok x : Except e a).map f = .ok (f x) := rfl

/-- Map on a failed `Except` computation. -/
@[simp] theorem exceptMap_error {e a b : Type} (f : a → b) (err : e) :
    (Except.error err : Except e a).map f = .error err := rfl

/-- The mutating public operations of the pool, for stating properties
of whole operation sequences. -/
inductive Op (V : Type) where
  | push_front (v : V) (head : Nat)
  | push_back (v : V) (head : Nat)
  | free (head : Nat)
  | free_list (head : Nat)
  | write_value (i : Nat) (v : V)
  | write_next (i j : Nat)

namespace list_pool

variable {V : Type}

/-- Apply one operation, discarding the returned handle. -/
def applyOp (p : list_pool V) : Op V → Except PoolErr (list_pool V)
  | .push_front v h => (p.fpush_front v h).map Prod.snd
  | .push_back v h => (p.fpush_back v h).map Prod.snd
  | .free h => (p.free h).map Prod.snd
  | .free_list h => (p.free_list h).map Prod.snd
  | .write_value i v => p.write_value i v
  | .write_next i j => p.write_next i j

/-- Run a sequence of operations; a thrown exception leaves the pool as
it was (in the source, validation happens before any mutation). -/
def runOps (p : list_pool V) : List (Op V) → list_pool V
  | [] => p
  | op :: ops =>
    match p.applyOp op with
    | .ok q => q.runOps ops
    | .error _ => p.runOps ops

theorem write_next_ok_size {p q : list_pool V} {i j : Nat}
    (heq : p.write_next i j = .ok q) : q.size = p.size := by
  obtain ⟨n, -, rfl⟩ := write_next_ok_inv heq
  simp [setNode, size]

theorem write_value_ok_size {p q : list_pool V} {i : Nat} {v : V}
    (heq : p.write_value i v = .ok q) : q.size = p.size := by
  obtain ⟨n, -, rfl⟩ := write_value_ok_inv heq
  simp [setNode, size]

theorem applyOp_size_mono {p q : list_pool V} {op : Op V} (heq : p.applyOp op = .ok q) :
    p.size ≤ q.size := by
  cases op with
  | push_front v h =>
    simp only [applyOp] at heq
    cases hp : p.fpush_front v h with
    | error e => rw [hp] at heq; simp at heq
    | ok pr =>
      obtain ⟨h', q'⟩ := pr
      rw [hp] at heq
      simp only [exceptMap_ok, Except.ok.injEq] at heq
      subst heq
      rcases fpush_front_ok_size hp with ⟨-, hsz⟩ | ⟨-, hsz⟩ <;> omega
  | push_back v h =>
    simp only [applyOp] at heq
    cases hp : p.fpush_back v h with
    | error e => rw [hp] at heq; simp at heq
    | ok pr =>
      obtain ⟨h', q'⟩ := pr
      rw [hp] at heq
      simp only [exceptMap_ok, Except.ok.injEq] at heq
      subst heq
      rcases fpush_back_ok_size hp with ⟨-, hsz⟩ | ⟨-, hsz⟩ <;> omega
  | free h =>
    simp only [applyOp] at heq
    cases hp : p.free h with
    | error e => rw [hp] at heq; simp at heq
    | ok pr =>
      obtain ⟨h', q'⟩ := pr
      rw [hp] at heq
      simp only [exceptMap_ok, Except.ok.injEq] at heq
      subst heq
      exact le_of_eq (free_ok_size hp).symm
  | free_list h =>
    simp only [applyOp] at heq
    cases hp : p.free_list h with
    | error e => rw [hp] at heq; simp at heq
    | ok pr =>
      obtain ⟨h', q'⟩ := pr
      rw [hp] at heq
      simp only [exceptMap_ok, Except.ok.injEq] at heq
      subst heq
      exact le_of_eq (free_list_ok_size hp).symm
  | write_value i v =>
    simp only [applyOp] at heq
    exact le_of_eq (write_value_ok_size heq).symm
  | write_next i j =>
    simp only [applyOp] at heq
    exact le_of_eq (write_next_ok_size heq).symm

theorem runOps_size_mono (p : list_pool V) (ops : List (Op V)) :
    p.size ≤ (p.runOps ops).size := by
  induction ops generalizing p with
  | nil => exact le_refl _
  | cons op ops ih =>
    show p.size ≤ (match p.applyOp op with
      | .ok q => q.runOps ops
      | .error _ => p.runOps ops).size
    cases happ : p.applyOp op with
    | ok q => exact le_trans (applyOp_size_mono happ) (ih q)
    | error e => exact ih p

end list_pool
/-! ### Claim C5 -/

/-- Claim C5 counterexample: starting from a fresh pool, the public
sequence push_front(100,0) = 1, push_front(200,0) = 2, free(2),
next(2) := 1 produces the pool `P` whose free chain is `[2, 1]` and
whose node 1 also heads the still-live singleton list returned by the
first push.  A successful `push_back(9, 1)` on `P` leaves `size()`
unchanged but the free chain afterwards is `[1, 2]` — still of length 2,
not shortened by one.  So the claim's "otherwise … shortening the free
chain by exactly one node" is false as stated. -/
theorem C5_counterexample :
    ((list_pool.new (V := Nat)).runOps [Op.push_front 100 0, Op.push_front 200 0,
        Op.free 2, Op.write_next 2 1])
      = ({ pool := [⟨100, 0⟩, ⟨200, 1⟩], free_node_list := 2 } : list_pool Nat) ∧
    ({ pool := [⟨100, 0⟩, ⟨200, 1⟩], free_node_list := 2 } : list_pool Nat).chain 3 2
      = some [2, 1] ∧
    ({ pool := [⟨100, 0⟩, ⟨200, 1⟩], free_node_list := 2 } : list_pool Nat).push_back 9 1
      = .ok (1, ({ pool := [⟨100, 2⟩, ⟨9, 0⟩], free_node_list := 1 } : list_pool Nat)) ∧
    ({ pool := [⟨100, 2⟩, ⟨9, 0⟩], free_node_list := 1 } : list_pool Nat).size
      = ({ pool := [⟨100, 0⟩, ⟨200, 1⟩], free_node_list := 2 } : list_pool Nat).size ∧
    ({ pool := [⟨100, 2⟩, ⟨9, 0⟩], free_node_list := 1 } : list_pool Nat).chain 3 1
      = some [1, 2] ∧
    ¬ (([1, 2] : List Nat).length + 1 = ([2, 1] : List Nat).length) :=
  ⟨rfl, rfl, rfl, rfl, rfl, by decide⟩

/-- Claim C5 (amended): `size()` never decreases across any operation
sequence; a successful `push_front`/`push_back` grows `size()` by one
exactly when the free chain is empty and keeps it unchanged otherwise;
and in the non-empty case the free chain shrinks by exactly one node
provided it is well formed — and, for `push_back`, disjoint from the
list being appended to (which the pool invariant guarantees; the
counterexample shows the shortening fails without it). -/
theorem C5_size_conservation {V : Type} (p : list_pool V) (ops : List (Op V))
    (v : V) (h h' : Nat) (q : list_pool V) :
    p.size ≤ (p.runOps ops).size ∧
    (p.fpush_front v h = .ok (h', q) →
      (p.free_node_list = 0 → q.size = p.size + 1) ∧
      (p.free_node_list ≠ 0 → q.size = p.size)) ∧
    (p.fpush_back v h = .ok (h', q) →
      (p.free_node_list = 0 → q.size = p.size + 1) ∧
      (p.free_node_list ≠ 0 → q.size = p.size)) ∧
    (∀ fl fvs, IsList p p.free_node_list fl fvs → p.free_node_list ≠ 0 →
      p.fpush_front v h = .ok (h', q) →
      ∃ fl' fvs', IsList q q.free_node_list fl' fvs' ∧ fl'.length + 1 = fl.length) ∧
    (∀ l vs fl fvs, IsList p h l vs → IsList p p.free_node_list fl fvs →
      (∀ i ∈ l, i ∉ fl) → p.free_node_list ≠ 0 → h ≠ 0 →
      p.fpush_back v h = .ok (h', q) →
      ∃ fl' fvs', IsList q q.free_node_list fl' fvs' ∧ fl'.length + 1 = fl.length) := by
  refine ⟨p.runOps_size_mono ops, ?_, ?_, ?_, ?_⟩
  · intro heq
    rcases list_pool.fpush_front_ok_size heq with ⟨hf, hsz⟩ | ⟨hf, hsz⟩
    · exact ⟨fun _ => hsz, fun hf' => absurd hf hf'⟩
    · exact ⟨fun hf' => absurd hf' hf, fun _ => hsz⟩
  · intro heq
    rcases list_pool.fpush_back_ok_size heq with ⟨hf, hsz⟩ | ⟨hf, hsz⟩
    · exact ⟨fun _ => hsz, fun hf' => absurd hf hf'⟩
    · exact ⟨fun hf' => absurd hf' hf, fun _ => hsz⟩
  · intro fl fvs hfl hf0 heq
    rcases list_pool.fpush_front_ok_inv heq with ⟨hf, -, -⟩ | ⟨-, -, nf, hnf, rfl⟩
    · exact absurd hf hf0
    · obtain ⟨n, tfl, ws, hn, rfl, rfl, htfl⟩ := hfl.of_ne_zero hf0
      rw [hn] at hnf
      obtain rfl := Option.some_injective _ hnf
      have hnotin : p.free_node_list ∉ tfl := (List.nodup_cons.mp hfl.nodup).1
      refine ⟨tfl, ws, ?_, by simp⟩
      have hfree : (({ p with free_node_list := n.next } : list_pool V).setNode
          p.free_node_list ⟨v, h⟩).free_node_list = n.next := rfl
      rw [hfree]
      refine htfl.frame ?_
      intro i hi
      rw [list_pool.setNode_node?_other _ _ hf0 (by
        intro hieq; rw [hieq] at hi; exact hnotin hi)]
      exact list_pool.node?_pool_congr rfl i
  · intro l vs fl fvs hl hfl hdisj hf0 h0 heq
    have hlne : l ≠ [] := fun hnil => h0 (hnil ▸ hl).eq_zero_of_nil
    obtain ⟨tl, htl, -⟩ :=
      p.isList_get_tail hl hlne (Nat.le_succ_of_le hl.length_le_size)
    obtain ⟨n, tfl, ws, hn, hfleq, -, htfl⟩ := hfl.of_ne_zero hf0
    have htlf : tl ≠ p.free_node_list := by
      intro hteq
      refine hdisj tl (List.mem_of_mem_getLast? htl) ?_
      rw [hfleq, hteq]
      exact List.mem_cons_self _ _
    obtain ⟨q', ntl, -, heq', hqfree, -, -, -, hfr⟩ :=
      p.fpush_back_recycle v h0 hl rfl hf0 hn htl htlf
    rw [heq] at heq'
    have hqq : q = q' := by
      simp only [Except.ok.injEq, Prod.mk.injEq] at heq'
      exact heq'.2
    subst hqq
    have hnotin : p.free_node_list ∉ tfl := by
      rw [hfleq] at hfl
      exact (List.nodup_cons.mp hfl.nodup).1
    refine ⟨tfl, ws, ?_, by rw [hfleq]; simp⟩
    rw [hqfree]
    refine htfl.frame ?_
    intro i hi
    refine hfr i ?_ ?_
    · intro hieq
      refine hdisj tl (List.mem_of_mem_getLast? htl) ?_
      rw [hfleq, ← hieq]
      exact List.mem_cons_of_mem _ hi
    · intro hieq
      rw [hieq] at hi
      exact hnotin hi

/-- Witness for C5 at concrete inputs: a growth push (empty free
chain), a recycling push_front and push_back on the pool holding live
list `[1]` and free chain `[2]`, and a one-operation sequence. -/
theorem C5_witness :
    ({ pool := [⟨5, 0⟩, ⟨9, 0⟩], free_node_list := 0 } : list_pool Nat).size
      = ({ pool := [⟨5, 0⟩], free_node_list := 0 } : list_pool Nat).size + 1 ∧
    ({ pool := [⟨5, 0⟩, ⟨9, 0⟩], free_node_list := 0 } : list_pool Nat).size
      = ({ pool := [⟨5, 0⟩, ⟨7, 0⟩], free_node_list := 2 } : list_pool Nat).size ∧
    (∃ fl' fvs',
      IsList ({ pool := [⟨5, 0⟩, ⟨9, 0⟩], free_node_list := 0 } : list_pool Nat)
        ({ pool := [⟨5, 0⟩, ⟨9, 0⟩], free_node_list := 0 } : list_pool Nat).free_node_list
        fl' fvs' ∧
      fl'.length + 1 = ([2] : List Nat).length) ∧
    ({ pool := [⟨5, 2⟩, ⟨9, 0⟩], free_node_list := 0 } : list_pool Nat).size
      = ({ pool := [⟨5, 0⟩, ⟨7, 0⟩], free_node_list := 2 } : list_pool Nat).size ∧
    (∃ fl' fvs',
      IsList ({ pool := [⟨5, 2⟩, ⟨9, 0⟩], free_node_list := 0 } : list_pool Nat)
        ({ pool := [⟨5, 2⟩, ⟨9, 0⟩], free_node_list := 0 } : list_pool Nat).free_node_list
        fl' fvs' ∧
      fl'.length + 1 = ([2] : List Nat).length) ∧
    (list_pool.new (V := Nat)).size
      ≤ ((list_pool.new (V := Nat)).runOps [Op.push_front 5 0]).size := by
  refine ⟨?_, ?_, ?_, ?_, ?_, ?_⟩
  · exact ((C5_size_conservation { pool := [⟨5, 0⟩], free_node_list := 0 } [] 9 0 2
      { pool := [⟨5, 0⟩, ⟨9, 0⟩], free_node_list := 0 }).2.1 rfl).1 rfl
  · exact ((C5_size_conservation { pool := [⟨5, 0⟩, ⟨7, 0⟩], free_node_list := 2 } [] 9 0 2
      { pool := [⟨5, 0⟩, ⟨9, 0⟩], free_node_list := 0 }).2.1 rfl).2 (by decide)
  · exact (C5_size_conservation { pool := [⟨5, 0⟩, ⟨7, 0⟩], free_node_list := 2 } [] 9 0 2
      { pool := [⟨5, 0⟩, ⟨9, 0⟩], free_node_list := 0 }).2.2.2.1 [2] [7]
      (@IsList.cons Nat { pool := [⟨5, 0⟩, ⟨7, 0⟩], free_node_list := 2 } 2 ⟨7, 0⟩ [] []
        rfl IsList.nil) (by decide) rfl
  · exact ((C5_size_conservation { pool := [⟨5, 0⟩, ⟨7, 0⟩], free_node_list := 2 } [] 9 1 1
      { pool := [⟨5, 2⟩, ⟨9, 0⟩], free_node_list := 0 }).2.2.1 rfl).2 (by decide)
  · exact (C5_size_conservation { pool := [⟨5, 0⟩, ⟨7, 0⟩], free_node_list := 2 } [] 9 1 1
      { pool := [⟨5, 2⟩, ⟨9, 0⟩], free_node_list := 0 }).2.2.2.2 [1] [5] [2] [7]
      (@IsList.cons Nat { pool := [⟨5, 0⟩, ⟨7, 0⟩], free_node_list := 2 } 1 ⟨5, 0⟩ [] []
        rfl IsList.nil)
      (@IsList.cons Nat { pool := [⟨5, 0⟩, ⟨7, 0⟩], free_node_list := 2 } 2 ⟨7, 0⟩ [] []
        rfl IsList.nil)
      (by decide) (by decide) (by decide) rfl
  · exact (C5_size_conservation (list_pool.new (V := Nat)) [Op.push_front 5 0] 0 0 0
      list_pool.new).1
/-! ### Claim C2: the push_back order law -/

namespace list_pool

variable {V : Type}

/-- Successive `push_back` calls, each one onto the head returned by
the previous call. -/
def push_back_all (p : list_pool V) (head : Nat) : List V → Except PoolErr (Nat × list_pool V)
  | [] => .ok (head, p)
  | v :: ws => do
    let r ← p.fpush_back v head
    r.2.push_back_all r.1 ws

/-- One `push_back` preserves the invariant: the handles visited from
the head carry the values pushed so far, the free chain is well formed,
and the two are disjoint. -/
theorem push_back_step {p : list_pool V} {h : Nat} {idxs : List Nat} {vs : List V} (v : V)
    (hl : IsList p h idxs vs)
    (hfree : ∃ fl fvs, IsList p p.free_node_list fl fvs ∧ ∀ i ∈ idxs, i ∉ fl) :
    ∃ (h' : Nat) (q : list_pool V) (idxs' : List Nat),
      p.fpush_back v h = .ok (h', q) ∧ IsList q h' idxs' (vs ++ [v]) ∧
      (∃ fl' fvs', IsList q q.free_node_list fl' fvs' ∧ ∀ i ∈ idxs', i ∉ fl') := by
  obtain ⟨fl, fvs, hfl, hdisj⟩ := hfree
  by_cases h0 : h = 0
  · subst h0
    obtain ⟨rfl, rfl⟩ := hl.eq_nil_of_zero
    have hdel : p.fpush_back v 0 = p.fpush_front v 0 := by
      simp [fpush_back, is_empty]
    by_cases hf : p.free_node_list = 0
    · rw [p.fpush_front_grow v (Nat.zero_le _) hf] at hdel
      refine ⟨p.size + 1, _, [p.size + 1], hdel, ?_, [], [], ?_, by simp⟩
      · refine IsList.cons (node?_append_new (p := p) ⟨v, 0⟩ rfl) ?_
        exact IsList.nil
      · exact IsList.nil
    · obtain ⟨nf, tfl, fws, hnf, rfl, rfl, htfl⟩ := hfl.of_ne_zero hf
      obtain ⟨q, heq, hqfree, hqnew, hqfr, -⟩ :=
        p.fpush_front_recycle v (Nat.zero_le _) rfl hf hnf
      rw [heq] at hdel
      have hnotin : p.free_node_list ∉ tfl := (List.nodup_cons.mp hfl.nodup).1
      refine ⟨p.free_node_list, q, [p.free_node_list], hdel, ?_, tfl, fws, ?_, ?_⟩
      · exact IsList.cons hqnew IsList.nil
      · rw [hqfree]
        refine htfl.frame ?_
        intro i hi
        exact hqfr i (fun hieq => hnotin (hieq ▸ hi))
      · intro i hi
        simp only [List.mem_singleton] at hi
        subst hi
        exact fun hmem => hnotin hmem
  · by_cases hf : p.free_node_list = 0
    · obtain ⟨q, tl, ntl, htl, hntl, heq, hqfree, -, hqnew, hqtl, hqfr⟩ :=
        p.fpush_back_grow v h0 hl hf
      refine ⟨h, q, idxs ++ [p.size + 1], heq, ?_, [], [], ?_, by simp⟩
      · refine hl.append htl ?_ ?_ hqnew ?_
        · intro i hi hine
          exact hqfr i hine (hl.mem_bounds i hi).2
        · intro n2 hn2
          rw [hntl] at hn2
          obtain rfl := Option.some_injective _ hn2
          exact hqtl
        · intro hmem
          exact absurd (hl.mem_bounds _ hmem).2 (by omega)
      · rw [hqfree]
        exact IsList.nil
    · obtain ⟨nf, tfl, fws, hnf, hfleq, -, htfl⟩ := hfl.of_ne_zero hf
      have hlne : idxs ≠ [] := fun hnil => h0 (hnil ▸ hl).eq_zero_of_nil
      obtain ⟨tl, htl, -⟩ :=
        p.isList_get_tail hl hlne (Nat.le_succ_of_le hl.length_le_size)
      have htlmem : tl ∈ idxs := List.mem_of_mem_getLast? htl
      have htlf : tl ≠ p.free_node_list := by
        intro hteq
        exact hdisj tl htlmem (by rw [hfleq, hteq]; exact List.mem_cons_self _ _)
      obtain ⟨q, ntl, hntl, heq, hqfree, -, hqnew, hqtl, hqfr⟩ :=
        p.fpush_back_recycle v h0 hl rfl hf hnf htl htlf
      have hfnotin : p.free_node_list ∉ tfl := by
        rw [hfleq] at hfl
        exact (List.nodup_cons.mp hfl.nodup).1
      refine ⟨h, q, idxs ++ [p.free_node_list], heq, ?_, tfl, fws, ?_, ?_⟩
      · refine hl.append htl ?_ ?_ hqnew ?_
        · intro i hi hine
          refine hqfr i hine ?_
          intro hieq
          exact hdisj i hi (by rw [hfleq, hieq]; exact List.mem_cons_self _ _)
        · intro n2 hn2
          rw [hntl] at hn2
          obtain rfl := Option.some_injective _ hn2
          exact hqtl
        · intro hmem
          exact hdisj _ hmem (by rw [hfleq]; exact List.mem_cons_self _ _)
      · rw [hqfree]
        refine htfl.frame ?_
        intro i hi
        refine hqfr i ?_ ?_
        · intro hieq
          exact hdisj tl htlmem (by rw [hfleq, ← hieq]; exact List.mem_cons_of_mem _ hi)
        · intro hieq
          exact hfnotin (hieq ▸ hi)
      · intro i hi
        rcases List.mem_append.mp hi with hi | hi
        · intro hmem
          exact hdisj i hi (by rw [hfleq]; exact List.mem_cons_of_mem _ hmem)
        · simp only [List.mem_singleton] at hi
          subst hi
          exact fun hmem => hfnotin hmem

/-- The invariant carries through a whole sequence of `push_back`s. -/
theorem push_back_all_inv :
    ∀ (ws : List V) (p : list_pool V) (h : Nat) (idxs : List Nat) (vs : List V),
      IsList p h idxs vs →
      (∃ fl fvs, IsList p p.free_node_list fl fvs ∧ ∀ i ∈ idxs, i ∉ fl) →
      ∃ (h' : Nat) (q : list_pool V) (idxs' : List Nat),
        p.push_back_all h ws = .ok (h', q) ∧ IsList q h' idxs' (vs ++ ws) ∧
        (∃ fl' fvs', IsList q q.free_node_list fl' fvs' ∧ ∀ i ∈ idxs', i ∉ fl') := by
  intro ws
  induction ws with
  | nil =>
    intro p h idxs vs hl hfree
    exact ⟨h, p, idxs, rfl, by simpa using hl, hfree⟩
  | cons w ws ih =>
    intro p h idxs vs hl hfree
    obtain ⟨h1, q1, idxs1, heq1, hl1, hfree1⟩ := push_back_step w hl hfree
    obtain ⟨h2, q2, idxs2, heq2, hl2, hfree2⟩ := ih q1 h1 idxs1 (vs ++ [w]) hl1 hfree1
    refine ⟨h2, q2, idxs2, ?_, ?_, hfree2⟩
    · show (p.fpush_back w h) >>= _ = _
      rw [heq1]
      simpa using heq2
    · simpa using hl2

end list_pool

/-- Claim C2 counterexample: the claim quantifies over every pool, but
on the pool whose single node points at itself and heads the free chain
— reachable from a fresh pool by push_front(100,0) = 1, free(1),
next(1) := 1 — two successive push_backs of 7 then 8 onto an initially
empty list succeed and traversing the final head yields `[8]`, not
`[7, 8]`. -/
theorem C2_counterexample :
    (list_pool.new (V := Nat)).runOps [Op.push_front 100 0, Op.free 1, Op.write_next 1 1]
      = ({ pool := [⟨100, 1⟩], free_node_list := 1 } : list_pool Nat) ∧
    ({ pool := [⟨100, 1⟩], free_node_list := 1 } : list_pool Nat).push_back_all 0 [7, 8]
      = .ok (1, ({ pool := [⟨8, 0⟩], free_node_list := 1 } : list_pool Nat)) ∧
    ({ pool := [⟨8, 0⟩], free_node_list := 1 } : list_pool Nat).traverse 2 1 = some [8] ∧
    ([8] : List Nat) ≠ [7, 8] :=
  ⟨rfl, rfl, rfl, by decide⟩

/-- Claim C2 (amended): on every pool whose free chain is well formed
(the walk from `free_node_list` reaches the sentinel — in particular on
every pool maintained only through the pool's own operations), pushing
`v1, …, vn` by successive `push_back` calls, each onto the head
returned by the previous call and starting from the empty list, yields
a final head whose traversal is exactly `v1, …, vn`. -/
theorem C2_push_back_order {V : Type} (p : list_pool V) (vs : List V) (fl : List Nat)
    (hwf : p.chain (p.size + 1) p.free_node_list = some fl) :
    ∃ (h' : Nat) (q : list_pool V),
      p.push_back_all 0 vs = .ok (h', q) ∧ q.traverse (q.size + 1) h' = some vs := by
  obtain ⟨fvs, hfl⟩ := p.chain_isList hwf
  obtain ⟨h', q, idxs', heq, hlist, -⟩ :=
    list_pool.push_back_all_inv vs p 0 [] [] IsList.nil ⟨fl, fvs, hfl, by simp⟩
  refine ⟨h', q, heq, ?_⟩
  have := q.isList_traverse (by simpa using hlist)
    (Nat.le_succ_of_le (IsList.length_le_size (by simpa using hlist)))
  simpa using this

/-- Witness for C2 at a concrete input: a pool with one freed slot on
the free chain, pushing 7 then 8. -/
theorem C2_witness :
    ∃ (h' : Nat) (q : list_pool Nat),
      ({ pool := [⟨50, 0⟩], free_node_list := 1 } : list_pool Nat).push_back_all 0 [7, 8]
        = .ok (h', q) ∧ q.traverse (q.size + 1) h' = some [7, 8] :=
  C2_push_back_order { pool := [⟨50, 0⟩], free_node_list := 1 } [7, 8] [1] rfl
/-! ### Claim C9: machinery -/

/-- `Covers p heads live`: `live` is the concatenation of the chains of
the handles in `heads`, in order. -/
inductive Covers {V : Type} (p : list_pool V) : List Nat → List Nat → Prop
  | nil : Covers p [] []
  | cons {h : Nat} {l : List Nat} {hs rest : List Nat} :
      (∃ vs, IsList p h l vs) → Covers p hs rest → Covers p (h :: hs) (l ++ rest)

namespace Covers

variable {V : Type} {p q : list_pool V}

theorem cons_inv {h : Nat} {hs live : List Nat} (hc : Covers p (h :: hs) live) :
    ∃ l rest vs, IsList p h l vs ∧ Covers p hs rest ∧ live = l ++ rest := by
  cases hc with
  | cons hl hrest =>
    obtain ⟨vs, hl⟩ := hl
    exact ⟨_, _, vs, hl, hrest, rfl⟩

theorem frame_all {heads live : List Nat} (hc : Covers p heads live)
    (hfr : ∀ i ∈ live, q.node? i = p.node? i) : Covers q heads live := by
  induction hc with
  | nil => exact nil
  | cons hl hrest ih =>
    obtain ⟨vs, hl⟩ := hl
    refine cons ⟨vs, hl.frame ?_⟩ (ih ?_)
    · intro i hi
      exact hfr i (List.mem_append.mpr (Or.inl hi))
    · intro i hi
      exact hfr i (List.mem_append.mpr (Or.inr hi))

theorem perm {heads heads' live : List Nat} (hp : heads.Perm heads')
    (hc : Covers p heads live) : ∃ live', Covers p heads' live' ∧ live.Perm live' := by
  induction hp generalizing live with
  | nil =>
    cases hc
    exact ⟨[], nil, List.Perm.refl _⟩
  | cons x hp ih =>
    obtain ⟨l, rest, vs, hl, hrest, rfl⟩ := hc.cons_inv
    obtain ⟨rest', hr', hperm⟩ := ih hrest
    exact ⟨l ++ rest', cons ⟨vs, hl⟩ hr', List.Perm.append_left _ hperm⟩
  | swap x y t =>
    obtain ⟨ly, rest1, vsy, hly, hrest, rfl⟩ := hc.cons_inv
    obtain ⟨lx, rest2, vsx, hlx, hrest2, rfl⟩ := hrest.cons_inv
    refine ⟨lx ++ (ly ++ rest2), cons ⟨vsx, hlx⟩ (cons ⟨vsy, hly⟩ hrest2), ?_⟩
    rw [← List.append_assoc, ← List.append_assoc]
    exact List.Perm.append_right rest2 List.perm_append_comm
  | trans hp1 hp2 ih1 ih2 =>
    obtain ⟨live1, hc1, hperm1⟩ := ih1 hc
    obtain ⟨live2, hc2, hperm2⟩ := ih2 hc1
    exact ⟨live2, hc2, hperm1.trans hperm2⟩

end Covers

namespace IsList

variable {V : Type} {p q : list_pool V}

/-- A pool update that keeps every node's `next` (possibly changing
stored values) keeps every chain, with possibly different values. -/
theorem congr_next (hnx : ∀ j : Nat, (q.node? j).map Node.next = (p.node? j).map Node.next)
    {h : Nat} {l : List Nat} {vs : List V} (hl : IsList p h l vs) :
    ∃ vs', IsList q h l vs' := by
  induction hl with
  | nil => exact ⟨[], nil⟩
  | cons hn ht ih =>
    rename_i hh n t ws
    obtain ⟨ws', hws'⟩ := ih
    have h2 := hnx hh
    rw [hn] at h2
    cases hq : q.node? hh with
    | none => rw [hq] at h2; simp at h2
    | some m =>
      rw [hq] at h2
      simp only [Option.map_some'] at h2
      obtain hmn := Option.some_injective _ h2
      refine ⟨m.value :: ws', cons hq ?_⟩
      rw [hmn]
      exact hws'

/-- Redirecting the tail of one chain onto the head of another,
node-disjoint chain concatenates the two chains. -/
theorem splice {h tl fh : Nat} {l fl : List Nat} {vs fvs : List V}
    (hl : IsList p h l vs) (hlast : l.getLast? = some tl)
    (hfl : IsList p fh fl fvs)
    (hfr : ∀ i ∈ l, i ≠ tl → q.node? i = p.node? i)
    (htl : ∀ ntl, p.node? tl = some ntl → q.node? tl = some ⟨ntl.value, fh⟩)
    (hflfr : ∀ i ∈ fl, q.node? i = p.node? i)
    (hdisj : ∀ i ∈ l, i ∉ fl) :
    IsList q h (l ++ fl) (vs ++ fvs) := by
  induction hl with
  | nil => simp at hlast
  | cons hn ht ih =>
    rename_i hh n t ws
    cases t with
    | nil =>
      have htlh : tl = hh := by simpa using hlast.symm
      subst htlh
      have hws : ws = [] := ht.values_nil
      subst hws
      exact @IsList.cons V q tl ⟨n.value, fh⟩ fl fvs (htl n hn) (hfl.frame hflfr)
    | cons t0 t' =>
      have hnodup := (IsList.cons hn ht).nodup
      have hhtl : hh ≠ tl := by
        intro heq
        have hmem : tl ∈ t0 :: t' := by
          have hl2 := hlast
          rw [List.getLast?_cons_cons] at hl2
          exact List.mem_of_mem_getLast? hl2
        rw [heq] at hnodup
        exact (List.nodup_cons.mp hnodup).1 hmem
      refine cons ?_ ?_
      · rw [hfr hh (by simp) hhtl]
        exact hn
      · refine ih ?_ ?_ ?_
        · rw [List.getLast?_cons_cons] at hlast
          exact hlast
        · intro i hi hineq
          exact hfr i (List.mem_cons_of_mem _ hi) hineq
        · intro i hi
          exact hdisj i (List.mem_cons_of_mem _ hi)

end IsList
namespace list_pool

variable {V : Type}

theorem free_ok_inv {p q : list_pool V} {h h' : Nat} (heq : p.free h = .ok (h', q)) :
    (h = 0 ∧ h' = 0 ∧ q = p) ∨
    (h ≠ 0 ∧ ∃ n, p.node? h = some n ∧ h' = n.next ∧
      q = { p.setNode h ⟨n.value, p.free_node_list⟩ with free_node_list := h }) := by
  unfold free at heq
  by_cases h0 : h = 0
  · left
    subst h0
    simp only [is_empty, beq_self_eq_true, if_true, Except.ok.injEq, Prod.mk.injEq] at heq
    exact ⟨rfl, heq.1.symm, heq.2.symm⟩
  · right
    have h0b : (h == 0) = false := by simp [h0]
    simp only [is_empty, h0b, Bool.false_eq_true, if_false] at heq
    cases hc : p.check_index1 h with
    | error e => rw [hc] at heq; simp at heq
    | ok u =>
      rw [hc] at heq
      simp only [exceptBind_ok] at heq
      cases hn : p.node? h with
      | none => rw [p.readNode_none hn] at heq; simp at heq
      | some n =>
        rw [p.readNode_ok hn] at heq
        simp only [exceptBind_ok, pure, Except.pure, Except.ok.injEq, Prod.mk.injEq] at heq
        exact ⟨h0, n, rfl, heq.1.symm, heq.2.symm⟩

theorem free_list_ok_inv {p q : list_pool V} {h h' : Nat}
    (heq : p.free_list h = .ok (h', q)) :
    (h = 0 ∧ h' = 0 ∧ q = p) ∨
    (h ≠ 0 ∧ h' = 0 ∧ h ≤ p.size ∧ ∃ tl n, p.get_tail (p.size + 1) h = .ok tl ∧
      p.node? tl = some n ∧
      q = { p.setNode tl ⟨n.value, p.free_node_list⟩ with free_node_list := h }) := by
  unfold free_list at heq
  by_cases h0 : h = 0
  · left
    subst h0
    simp only [is_empty, beq_self_eq_true, if_true, Except.ok.injEq, Prod.mk.injEq] at heq
    exact ⟨rfl, heq.1.symm, heq.2.symm⟩
  · right
    have h0b : (h == 0) = false := by simp [h0]
    simp only [is_empty, h0b, Bool.false_eq_true, if_false] at heq
    cases hc : p.check_index1 h with
    | error e => rw [hc] at heq; simp at heq
    | ok u =>
      have hle : h ≤ p.size := by
        by_contra hgt
        simp [check_index1, Nat.lt_of_not_le hgt] at hc
      rw [hc] at heq
      simp only [exceptBind_ok] at heq
      cases hgt : p.get_tail (p.size + 1) h with
      | error e => rw [hgt] at heq; simp at heq
      | ok tl =>
        rw [hgt] at heq
        simp only [exceptBind_ok] at heq
        cases hn : p.node? tl with
        | none => rw [p.readNode_none hn] at heq; simp at heq
        | some n =>
          rw [p.readNode_ok hn] at heq
          simp only [exceptBind_ok, pure, Except.pure, Except.ok.injEq, Prod.mk.injEq] at heq
          exact ⟨h0, heq.1.symm, hle, tl, n, rfl, hn, heq.2.symm⟩

end list_pool

/-- One structural step of the public interface, operating on a list of
live head handles: a push consumes the head it is given (or the
sentinel) and yields the returned head; `free`/`free_list` consume the
head and yield the returned handle; `value(i) = v` writes may target any
handle; heads may be permuted.  Writes through `next()` are exactly what
this relation leaves out. -/
inductive OpStep {V : Type} : (list_pool V × List Nat) → (list_pool V × List Nat) → Prop
  | perm {p : list_pool V} {heads heads' : List Nat} :
      heads.Perm heads' → OpStep (p, heads) (p, heads')
  | push_front_new {p q : list_pool V} {hs : List Nat} {v : V} {h' : Nat} :
      p.fpush_front v 0 = .ok (h', q) → OpStep (p, hs) (q, h' :: hs)
  | push_front_old {p q : list_pool V} {hs : List Nat} {v : V} {h h' : Nat} :
      p.fpush_front v h = .ok (h', q) → OpStep (p, h :: hs) (q, h' :: hs)
  | push_back_new {p q : list_pool V} {hs : List Nat} {v : V} {h' : Nat} :
      p.fpush_back v 0 = .ok (h', q) → OpStep (p, hs) (q, h' :: hs)
  | push_back_old {p q : list_pool V} {hs : List Nat} {v : V} {h h' : Nat} :
      p.fpush_back v h = .ok (h', q) → OpStep (p, h :: hs) (q, h' :: hs)
  | free_step {p q : list_pool V} {hs : List Nat} {h h' : Nat} :
      p.free h = .ok (h', q) → OpStep (p, h :: hs) (q, h' :: hs)
  | free_list_step {p q : list_pool V} {hs : List Nat} {h h' : Nat} :
      p.free_list h = .ok (h', q) → OpStep (p, h :: hs) (q, h' :: hs)
  | write_value_step {p q : list_pool V} {hs : List Nat} {i : Nat} {v : V} :
      p.write_value i v = .ok q → OpStep (p, hs) (q, hs)

/-- The partition invariant: the chains of the live heads and the free
chain are all defined, mutually disjoint, and together they cover the
indices `[1, size]` exactly. -/
def GoodState {V : Type} (p : list_pool V) (heads : List Nat) : Prop :=
  ∃ live fl fvs, Covers p heads live ∧ IsList p p.free_node_list fl fvs ∧
    (live ++ fl).Nodup ∧ ∀ i : Nat, i ∈ live ++ fl ↔ (1 ≤ i ∧ i ≤ p.size)
/-! ### Preservation of the partition invariant -/

theorem goodState_push_front_case {V : Type} {p q : list_pool V} {v : V} {h h' : Nat}
    {lh rest fl : List Nat} {vsh fvs : List V} {hs : List Nat}
    (heq : p.fpush_front v h = .ok (h', q))
    (hlh : IsList p h lh vsh) (hrest : Covers p hs rest)
    (hfl : IsList p p.free_node_list fl fvs)
    (hnodup : ((lh ++ rest) ++ fl).Nodup)
    (hcov : ∀ i : Nat, i ∈ (lh ++ rest) ++ fl ↔ (1 ≤ i ∧ i ≤ p.size)) :
    GoodState q (h' :: hs) := by
  rcases p.fpush_front_ok_inv heq with ⟨hf, rfl, rfl⟩ | ⟨hf, rfl, nf, hnf, rfl⟩
  · have hfl0 : fl = [] := by
      rw [hf] at hfl
      exact hfl.eq_nil_of_zero.1
    subst hfl0
    have hqpool : ({ pool := p.pool ++ [⟨v, h⟩], free_node_list := 0 } : list_pool V).pool
        = p.pool ++ [⟨v, h⟩] := rfl
    have hmemle : ∀ i ∈ lh ++ rest, i ≤ p.size := by
      intro i hi
      exact ((hcov i).mp (by simpa using hi)).2
    have hfr : ∀ i ∈ lh ++ rest,
        ({ pool := p.pool ++ [⟨v, h⟩], free_node_list := 0 } : list_pool V).node? i
          = p.node? i := by
      intro i hi
      exact list_pool.node?_append_le _ hqpool (hmemle i hi)
    refine ⟨((p.size + 1) :: lh) ++ rest, [], [], ?_, ?_, ?_, ?_⟩
    · refine Covers.cons ⟨v :: vsh, ?_⟩ (hrest.frame_all fun i hi =>
        hfr i (List.mem_append.mpr (Or.inr hi))) 
      refine IsList.cons (list_pool.node?_append_new (p := p) ⟨v, h⟩ hqpool) ?_
      exact hlh.frame fun i hi => hfr i (List.mem_append.mpr (Or.inl hi))
    · exact IsList.nil
    · have hfresh : p.size + 1 ∉ lh ++ rest := by
        intro hmem
        have := hmemle _ hmem
        omega
      simp only [List.append_nil] at hnodup ⊢
      show ((p.size + 1) :: (lh ++ rest)).Nodup
      exact List.nodup_cons.mpr ⟨hfresh, hnodup⟩
    · intro i
      simp only [List.append_nil] at hcov ⊢
      show i ∈ (p.size + 1) :: (lh ++ rest) ↔ _
      rw [List.mem_cons]
      have hq : ({ pool := p.pool ++ [⟨v, h⟩], free_node_list := 0 } : list_pool V).size
          = p.size + 1 := by simp [list_pool.size]
      rw [hq, hcov i]
      omega
  · set f := p.free_node_list with hfdef
    obtain ⟨nf', tfl, fws, hnf', hfleq, -, htfl⟩ := hfl.of_ne_zero hf
    have hnfeq : nf' = nf := by
      have h3 := hnf'
      rw [hnf] at h3
      exact (Option.some_injective _ h3).symm
    rw [hnfeq] at htfl
    subst hfleq
    have hfb : f ≤ p.size := (p.node?_mem_le_size hnf).2
    set q : list_pool V :=
      ({ p with free_node_list := nf.next } : list_pool V).setNode f ⟨v, h⟩ with hqdef
    have hqself : q.node? f = some ⟨v, h⟩ := by
      refine list_pool.setNode_node?_self _ _ hf ?_
      show f ≤ p.size
      exact hfb
    have hqother : ∀ i, i ≠ f → q.node? i = p.node? i := by
      intro i hi
      rw [list_pool.setNode_node?_other _ _ hf hi]
      exact list_pool.node?_pool_congr rfl i
    have hqsize : q.size = p.size := by simp [hqdef, list_pool.setNode, list_pool.size]
    have hqfree : q.free_node_list = nf.next := rfl
    have hnd1 := List.nodup_append.mp hnodup
    have hfnotlive : f ∉ lh ++ rest := fun hmem =>
      hnd1.2.2 hmem (List.mem_cons_self _ _)
    have hfnottfl : f ∉ tfl := (List.nodup_cons.mp hnd1.2.1).1
    refine ⟨(f :: lh) ++ rest, tfl, fws, ?_, ?_, ?_, ?_⟩
    · refine Covers.cons ⟨v :: vsh, ?_⟩ (hrest.frame_all fun i hi => hqother i ?_)
      · refine IsList.cons hqself ?_
        show IsList q ((⟨v, h⟩ : Node V).next) lh vsh
        refine hlh.frame fun i hi => hqother i ?_
        intro hieq
        exact hfnotlive (hieq ▸ List.mem_append.mpr (Or.inl hi))
      · intro hieq
        exact hfnotlive (hieq ▸ List.mem_append.mpr (Or.inr hi))
    · rw [hqfree]
      exact htfl.frame fun i hi => hqother i fun hieq => hfnottfl (hieq ▸ hi)
    · show (f :: ((lh ++ rest) ++ tfl)).Nodup
      have hperm : List.Perm ((lh ++ rest) ++ f :: tfl) (f :: ((lh ++ rest) ++ tfl)) :=
        List.perm_middle
      exact hperm.nodup hnodup
    · intro i
      show i ∈ f :: ((lh ++ rest) ++ tfl) ↔ _
      have hperm : List.Perm ((lh ++ rest) ++ f :: tfl) (f :: ((lh ++ rest) ++ tfl)) :=
        List.perm_middle
      rw [← hperm.mem_iff, hcov i, hqsize]

theorem goodState_push_back_case {V : Type} {p q : list_pool V} {v : V} {h h' : Nat}
    {lh rest fl : List Nat} {vsh fvs : List V} {hs : List Nat}
    (heq : p.fpush_back v h = .ok (h', q))
    (hlh : IsList p h lh vsh) (hrest : Covers p hs rest)
    (hfl : IsList p p.free_node_list fl fvs)
    (hnodup : ((lh ++ rest) ++ fl).Nodup)
    (hcov : ∀ i : Nat, i ∈ (lh ++ rest) ++ fl ↔ (1 ≤ i ∧ i ≤ p.size)) :
    GoodState q (h' :: hs) := by
  by_cases h0 : h = 0
  · subst h0
    have hdel : p.fpush_back v 0 = p.fpush_front v 0 := by
      simp [list_pool.fpush_back, list_pool.is_empty]
    rw [hdel] at heq
    exact goodState_push_front_case heq hlh hrest hfl hnodup hcov
  · have hnd1 := List.nodup_append.mp hnodup
    have hnd2 := List.nodup_append.mp hnd1.1
    by_cases hf : p.free_node_list = 0
    · obtain ⟨q', tl, ntl, htl, hntl, heq', hqfree, hqsize, hqnew, hqtl, hqfr⟩ :=
        p.fpush_back_grow v h0 hlh hf
      have hpair : h' = h ∧ q = q' := by
        have h3 := heq.symm.trans heq'
        simp only [Except.ok.injEq, Prod.mk.injEq] at h3
        exact ⟨h3.1, h3.2⟩
      obtain ⟨rfl, rfl⟩ := hpair
      have hfl0 : fl = [] := by
        rw [hf] at hfl
        exact hfl.eq_nil_of_zero.1
      subst hfl0
      have htlmem : tl ∈ lh := List.mem_of_mem_getLast? htl
      have hmemle : ∀ i ∈ lh ++ rest, i ≤ p.size := by
        intro i hi
        exact ((hcov i).mp (by simpa using hi)).2
      have hfresh : p.size + 1 ∉ lh ++ rest := by
        intro hmem
        have := hmemle _ hmem
        omega
      refine ⟨(lh ++ [p.size + 1]) ++ rest, [], [], ?_, ?_, ?_, ?_⟩
      · refine Covers.cons ⟨vsh ++ [v], ?_⟩ (hrest.frame_all ?_)
        · refine hlh.append htl ?_ ?_ hqnew ?_
          · intro i hi hine
            exact hqfr i hine (hmemle i (List.mem_append.mpr (Or.inl hi)))
          · intro n2 hn2
            rw [hntl] at hn2
            obtain rfl := Option.some_injective _ hn2
            exact hqtl
          · intro hmem
            exact hfresh (List.mem_append.mpr (Or.inl hmem))
        · intro i hi
          refine hqfr i ?_ (hmemle i (List.mem_append.mpr (Or.inr hi)))
          intro hieq
          exact hnd2.2.2 htlmem (hieq ▸ hi)
      · rw [hqfree]
        exact IsList.nil
      · have hpermB : List.Perm ((lh ++ [p.size + 1]) ++ rest)
            ((p.size + 1) :: (lh ++ rest)) := by
          have h1 : List.Perm (lh ++ ((p.size + 1) :: rest))
              ((p.size + 1) :: (lh ++ rest)) := List.perm_middle
          simpa [List.append_assoc] using h1
        simp only [List.append_nil] at hnodup ⊢
        exact hpermB.symm.nodup (List.nodup_cons.mpr ⟨hfresh, hnodup⟩)
      · intro i
        have hpermB : List.Perm ((lh ++ [p.size + 1]) ++ rest)
            ((p.size + 1) :: (lh ++ rest)) := by
          have h1 : List.Perm (lh ++ ((p.size + 1) :: rest))
              ((p.size + 1) :: (lh ++ rest)) := List.perm_middle
          simpa [List.append_assoc] using h1
        simp only [List.append_nil] at hcov ⊢
        rw [hpermB.mem_iff, List.mem_cons, hcov i, hqsize]
        omega
    · set f := p.free_node_list with hfdef
      obtain ⟨nf, tfl, fws, hnf, hfleq, -, htfl⟩ := hfl.of_ne_zero hf
      subst hfleq
      have hlne : lh ≠ [] := fun hnil => h0 (hnil ▸ hlh).eq_zero_of_nil
      obtain ⟨tl, htl, -⟩ :=
        p.isList_get_tail hlh hlne (Nat.le_succ_of_le hlh.length_le_size)
      have htlmem : tl ∈ lh := List.mem_of_mem_getLast? htl
      have htlf : tl ≠ f := by
        intro hteq
        exact hnd1.2.2 (List.mem_append.mpr (Or.inl htlmem))
          (hteq ▸ List.mem_cons_self _ _)
      obtain ⟨q', ntl, hntl, heq', hqfree, hqsize, hqnew, hqtl, hqfr⟩ :=
        p.fpush_back_recycle v h0 hlh rfl hf hnf htl htlf
      have hpair : h' = h ∧ q = q' := by
        have h3 := heq.symm.trans heq'
        simp only [Except.ok.injEq, Prod.mk.injEq] at h3
        exact ⟨h3.1, h3.2⟩
      obtain ⟨rfl, rfl⟩ := hpair
      have hfnotlive : f ∉ lh ++ rest := fun hmem =>
        hnd1.2.2 hmem (List.mem_cons_self _ _)
      have hfnottfl : f ∉ tfl := (List.nodup_cons.mp hnd1.2.1).1
      refine ⟨(lh ++ [f]) ++ rest, tfl, fws, ?_, ?_, ?_, ?_⟩
      · refine Covers.cons ⟨vsh ++ [v], ?_⟩ (hrest.frame_all ?_)
        · refine hlh.append htl ?_ ?_ hqnew ?_
          · intro i hi hine
            refine hqfr i hine ?_
            intro hieq
            rw [← hfdef] at hieq
            exact hfnotlive (hieq ▸ List.mem_append.mpr (Or.inl hi))
          · intro n2 hn2
            rw [hntl] at hn2
            obtain rfl := Option.some_injective _ hn2
            exact hqtl
          · intro hmem
            exact hfnotlive (List.mem_append.mpr (Or.inl hmem))
        · intro i hi
          refine hqfr i ?_ ?_
          · intro hieq
            exact hnd2.2.2 htlmem (hieq ▸ hi)
          · intro hieq
            rw [← hfdef] at hieq
            exact hfnotlive (hieq ▸ List.mem_append.mpr (Or.inr hi))
      · rw [hqfree]
        refine htfl.frame ?_
        intro i hi
        refine hqfr i ?_ ?_
        · intro hieq
          exact hnd1.2.2 (List.mem_append.mpr (Or.inl htlmem))
            (hieq ▸ List.mem_cons_of_mem _ hi)
        · intro hieq
          rw [← hfdef] at hieq
          exact hfnottfl (hieq ▸ hi)
      · have hpermA : List.Perm ((lh ++ rest) ++ (f :: tfl))
            (f :: (lh ++ (rest ++ tfl))) := by
          have h1 : List.Perm ((lh ++ rest) ++ (f :: tfl))
              (f :: ((lh ++ rest) ++ tfl)) := List.perm_middle
          simpa [List.append_assoc] using h1
        have hpermB : List.Perm (((lh ++ [f]) ++ rest) ++ tfl)
            (f :: (lh ++ (rest ++ tfl))) := by
          have h1 : List.Perm (lh ++ (f :: (rest ++ tfl)))
              (f :: (lh ++ (rest ++ tfl))) := List.perm_middle
          simpa [List.append_assoc] using h1
        exact hpermB.symm.nodup (hpermA.nodup hnodup)
      · intro i
        have hpermA : List.Perm ((lh ++ rest) ++ (f :: tfl))
            (f :: (lh ++ (rest ++ tfl))) := by
          have h1 : List.Perm ((lh ++ rest) ++ (f :: tfl))
              (f :: ((lh ++ rest) ++ tfl)) := List.perm_middle
          simpa [List.append_assoc] using h1
        have hpermB : List.Perm (((lh ++ [f]) ++ rest) ++ tfl)
            (f :: (lh ++ (rest ++ tfl))) := by
          have h1 : List.Perm (lh ++ (f :: (rest ++ tfl)))
              (f :: (lh ++ (rest ++ tfl))) := List.perm_middle
          simpa [List.append_assoc] using h1
        rw [hpermB.mem_iff, ← hpermA.mem_iff, hcov i, hqsize]

theorem goodState_free_case {V : Type} {p q : list_pool V} {h h' : Nat}
    {lh rest fl : List Nat} {vsh fvs : List V} {hs : List Nat}
    (heq : p.free h = .ok (h', q))
    (hlh : IsList p h lh vsh) (hrest : Covers p hs rest)
    (hfl : IsList p p.free_node_list fl fvs)
    (hnodup : ((lh ++ rest) ++ fl).Nodup)
    (hcov : ∀ i : Nat, i ∈ (lh ++ rest) ++ fl ↔ (1 ≤ i ∧ i ≤ p.size)) :
    GoodState q (h' :: hs) := by
  rcases p.free_ok_inv heq with ⟨rfl, rfl, rfl⟩ | ⟨h0, n, hn, rfl, rfl⟩
  · obtain ⟨rfl, rfl⟩ := hlh.eq_nil_of_zero
    exact ⟨[] ++ rest, fl, fvs, Covers.cons ⟨[], IsList.nil⟩ hrest, hfl, hnodup, hcov⟩
  · obtain ⟨n', t, ws, hn', hlheq, -, ht⟩ := hlh.of_ne_zero h0
    have hneq : n' = n := by
      have h3 := hn'
      rw [hn] at h3
      exact (Option.some_injective _ h3).symm
    rw [hneq] at ht
    subst hlheq
    have hhb : h ≤ p.size := (p.node?_mem_le_size hn).2
    set q : list_pool V :=
      { p.setNode h ⟨n.value, p.free_node_list⟩ with free_node_list := h } with hqdef
    have hqself : q.node? h = some ⟨n.value, p.free_node_list⟩ := by
      show (p.setNode h ⟨n.value, p.free_node_list⟩).node? h = _
      exact p.setNode_node?_self _ h0 hhb
    have hqother : ∀ i, i ≠ h → q.node? i = p.node? i := by
      intro i hi
      show (p.setNode h ⟨n.value, p.free_node_list⟩).node? i = _
      exact p.setNode_node?_other _ h0 hi
    have hqsize : q.size = p.size := by simp [hqdef, list_pool.setNode, list_pool.size]
    have hnd1 := List.nodup_append.mp hnodup
    have hnd2 := List.nodup_append.mp hnd1.1
    have hhmem : h ∈ (h :: t) ++ rest := List.mem_append.mpr (Or.inl (List.mem_cons_self _ _))
    have hht : h ∉ t := (List.nodup_cons.mp hnd2.1).1
    have hhrest : h ∉ rest := fun hmem => (List.disjoint_left.mp hnd2.2.2)
      (List.mem_cons_self _ _) hmem
    have hhfl : h ∉ fl := fun hmem => hnd1.2.2 hhmem hmem
    refine ⟨t ++ rest, h :: fl, n.value :: fvs, ?_, ?_, ?_, ?_⟩
    · refine Covers.cons ⟨ws, ht.frame fun i hi => hqother i fun hieq => hht (hieq ▸ hi)⟩
        (hrest.frame_all fun i hi => hqother i fun hieq => hhrest (hieq ▸ hi))
    · show IsList q h (h :: fl) (n.value :: fvs)
      exact @IsList.cons V q h ⟨n.value, p.free_node_list⟩ fl fvs hqself
        (hfl.frame fun i hi => hqother i fun hieq => hhfl (hieq ▸ hi))
    · have hperm : List.Perm ((t ++ rest) ++ (h :: fl)) (h :: ((t ++ rest) ++ fl)) :=
        List.perm_middle
      refine hperm.symm.nodup ?_
      show (h :: ((t ++ rest) ++ fl)).Nodup
      have hshape : ((h :: t) ++ rest) ++ fl = h :: ((t ++ rest) ++ fl) := by simp
      rw [hshape] at hnodup
      exact hnodup
    · intro i
      have hperm : List.Perm ((t ++ rest) ++ (h :: fl)) (h :: ((t ++ rest) ++ fl)) :=
        List.perm_middle
      rw [hperm.mem_iff]
      have hshape : ((h :: t) ++ rest) ++ fl = h :: ((t ++ rest) ++ fl) := by simp
      rw [hshape] at hcov
      rw [hcov i, hqsize]

theorem goodState_free_list_case {V : Type} {p q : list_pool V} {h h' : Nat}
    {lh rest fl : List Nat} {vsh fvs : List V} {hs : List Nat}
    (heq : p.free_list h = .ok (h', q))
    (hlh : IsList p h lh vsh) (hrest : Covers p hs rest)
    (hfl : IsList p p.free_node_list fl fvs)
    (hnodup : ((lh ++ rest) ++ fl).Nodup)
    (hcov : ∀ i : Nat, i ∈ (lh ++ rest) ++ fl ↔ (1 ≤ i ∧ i ≤ p.size)) :
    GoodState q (h' :: hs) := by
  rcases p.free_list_ok_inv heq with ⟨rfl, rfl, rfl⟩ | ⟨h0, rfl, -, tl, n, hgt, hn, rfl⟩
  · obtain ⟨rfl, rfl⟩ := hlh.eq_nil_of_zero
    exact ⟨[] ++ rest, fl, fvs, Covers.cons ⟨[], IsList.nil⟩ hrest, hfl, hnodup, hcov⟩
  · have hlne : lh ≠ [] := fun hnil => h0 (hnil ▸ hlh).eq_zero_of_nil
    obtain ⟨tl', htl', hgt'⟩ :=
      p.isList_get_tail hlh hlne (Nat.le_succ_of_le hlh.length_le_size)
    have htleq : tl' = tl := by
      have h3 := hgt'.symm.trans hgt
      simp only [Except.ok.injEq] at h3
      exact h3
    subst htleq
    have htlmem : tl' ∈ lh := List.mem_of_mem_getLast? htl'
    have htl0 : tl' ≠ 0 := by
      obtain ⟨hb, -⟩ := hlh.mem_bounds tl' htlmem
      omega
    have htlb : tl' ≤ p.size := (p.node?_mem_le_size hn).2
    set q : list_pool V :=
      { p.setNode tl' ⟨n.value, p.free_node_list⟩ with free_node_list := h } with hqdef
    have hqself : q.node? tl' = some ⟨n.value, p.free_node_list⟩ := by
      show (p.setNode tl' ⟨n.value, p.free_node_list⟩).node? tl' = _
      exact p.setNode_node?_self _ htl0 htlb
    have hqother : ∀ i, i ≠ tl' → q.node? i = p.node? i := by
      intro i hi
      show (p.setNode tl' ⟨n.value, p.free_node_list⟩).node? i = _
      exact p.setNode_node?_other _ htl0 hi
    have hqsize : q.size = p.size := by simp [hqdef, list_pool.setNode, list_pool.size]
    have hnd1 := List.nodup_append.mp hnodup
    have hnd2 := List.nodup_append.mp hnd1.1
    have htlrest : ∀ i ∈ rest, i ≠ tl' := fun i hi hieq =>
      (List.disjoint_left.mp hnd2.2.2) htlmem (hieq ▸ hi)
    refine ⟨[] ++ rest, lh ++ fl, vsh ++ fvs, ?_, ?_, ?_, ?_⟩
    · exact Covers.cons ⟨[], IsList.nil⟩
        (hrest.frame_all fun i hi => hqother i (htlrest i hi))
    · show IsList q h (lh ++ fl) (vsh ++ fvs)
      refine hlh.splice htl' hfl ?_ ?_ ?_ ?_
      · intro i hi hineq
        exact hqother i hineq
      · intro ntl hntl
        have hneq : ntl = n := by
          have h3 := hntl
          rw [hn] at h3
          exact (Option.some_injective _ h3).symm
        rw [hneq]
        exact hqself
      · intro i hi
        refine hqother i ?_
        intro hieq
        exact hnd1.2.2 (List.mem_append.mpr (Or.inl htlmem)) (hieq ▸ hi)
      · intro i hi hmem
        exact hnd1.2.2 (List.mem_append.mpr (Or.inl hi)) hmem
    · have hperm : List.Perm (([] ++ rest) ++ (lh ++ fl)) ((lh ++ rest) ++ fl) := by
        simp only [List.nil_append]
        rw [← List.append_assoc]
        exact List.Perm.append_right fl List.perm_append_comm
      exact hperm.symm.nodup hnodup
    · intro i
      have hperm : List.Perm (([] ++ rest) ++ (lh ++ fl)) ((lh ++ rest) ++ fl) := by
        simp only [List.nil_append]
        rw [← List.append_assoc]
        exact List.Perm.append_right fl List.perm_append_comm
      rw [hperm.mem_iff, hcov i, hqsize]

theorem covers_congr_next {V : Type} {p q : list_pool V}
    (hnx : ∀ j : Nat, (q.node? j).map Node.next = (p.node? j).map Node.next)
    {heads live : List Nat} (hc : Covers p heads live) : Covers q heads live := by
  induction hc with
  | nil => exact Covers.nil
  | cons hl hrest ih =>
    obtain ⟨vs, hl⟩ := hl
    obtain ⟨vs', hl'⟩ := hl.congr_next hnx
    exact Covers.cons ⟨vs', hl'⟩ ih

theorem goodState_write_value_case {V : Type} {p q : list_pool V} {i : Nat} {v : V}
    {heads : List Nat}
    (heq : p.write_value i v = .ok q) (hgs : GoodState p heads) : GoodState q heads := by
  obtain ⟨n, hn, rfl⟩ := p.write_value_ok_inv heq
  obtain ⟨hi1, hi2⟩ := p.node?_mem_le_size hn
  have hi0 : i ≠ 0 := by omega
  have hnx : ∀ j : Nat, ((p.setNode i ⟨v, n.next⟩).node? j).map Node.next
      = (p.node? j).map Node.next := by
    intro j
    by_cases hj : j = i
    · subst hj
      rw [p.setNode_node?_self _ hi0 hi2, hn]
      simp
    · rw [p.setNode_node?_other _ hi0 hj]
  obtain ⟨live, fl, fvs, hcover, hfl, hnodup, hcov⟩ := hgs
  have hfl2 : ∃ fvs', IsList (p.setNode i ⟨v, n.next⟩)
      (p.setNode i ⟨v, n.next⟩).free_node_list fl fvs' := by
    have := hfl.congr_next hnx
    simpa [list_pool.setNode_free] using this
  obtain ⟨fvs', hfl'⟩ := hfl2
  refine ⟨live, fl, fvs', covers_congr_next hnx hcover, hfl', hnodup, ?_⟩
  intro j
  rw [hcov j]
  have : (p.setNode i ⟨v, n.next⟩).size = p.size := p.setNode_size _ _
  rw [this]

theorem goodState_initial {V : Type} : GoodState (list_pool.new (V := V)) [] := by
  refine ⟨[], [], [], Covers.nil, IsList.nil, List.nodup_nil, ?_⟩
  intro i
  simp [list_pool.new, list_pool.size]
  omega

theorem goodState_step {V : Type} {s t : list_pool V × List Nat}
    (hstep : OpStep s t) (hgs : GoodState s.1 s.2) : GoodState t.1 t.2 := by
  obtain ⟨live, fl, fvs, hcover, hfl, hnodup, hcov⟩ := hgs
  cases hstep with
  | perm hp =>
    obtain ⟨live', hc', hperm⟩ := hcover.perm hp
    have happ : List.Perm (live ++ fl) (live' ++ fl) := List.Perm.append_right fl hperm
    exact ⟨live', fl, fvs, hc', hfl, happ.nodup hnodup,
      fun i => by rw [← happ.mem_iff, hcov i]⟩
  | push_front_new hpf =>
    exact goodState_push_front_case hpf IsList.nil hcover hfl (by simpa using hnodup)
      (by simpa using hcov)
  | push_front_old hpf =>
    obtain ⟨lh, rest, vsh, hlh, hrest, rfl⟩ := hcover.cons_inv
    exact goodState_push_front_case hpf hlh hrest hfl hnodup hcov
  | push_back_new hpb =>
    exact goodState_push_back_case hpb IsList.nil hcover hfl (by simpa using hnodup)
      (by simpa using hcov)
  | push_back_old hpb =>
    obtain ⟨lh, rest, vsh, hlh, hrest, rfl⟩ := hcover.cons_inv
    exact goodState_push_back_case hpb hlh hrest hfl hnodup hcov
  | free_step hfr =>
    obtain ⟨lh, rest, vsh, hlh, hrest, rfl⟩ := hcover.cons_inv
    exact goodState_free_case hfr hlh hrest hfl hnodup hcov
  | free_list_step hfr =>
    obtain ⟨lh, rest, vsh, hlh, hrest, rfl⟩ := hcover.cons_inv
    exact goodState_free_list_case hfr hlh hrest hfl hnodup hcov
  | write_value_step hwv =>
    exact goodState_write_value_case hwv ⟨live, fl, fvs, hcover, hfl, hnodup, hcov⟩

theorem goodState_reachable {V : Type} (s : list_pool V × List Nat)
    (hreach : Relation.ReflTransGen OpStep ((list_pool.new : list_pool V), ([] : List Nat)) s) :
    GoodState s.1 s.2 := by
  induction hreach with
  | refl => exact goodState_initial
  | tail hab hbc ih => exact goodState_step hbc ih

/-- Claim C9 counterexample: the claim ranges over all public
operations, but `next()` writes are public too.  From a fresh pool,
push_front(100,0) returns live handle 1, push_front(200,0) returns live
handle 2, free(1) puts node 1 on the free chain — and then the public
write next(2) := 1, performed on the still-live handle 2, makes node 1
reachable from the live handle 2 while it is also a member of the free
chain: index 1 is in both classes, so the partition fails as stated. -/
theorem C9_counterexample :
    (list_pool.new (V := Nat)).runOps [Op.push_front 100 0, Op.push_front 200 0,
        Op.free 1, Op.write_next 2 1]
      = ({ pool := [⟨100, 0⟩, ⟨200, 1⟩], free_node_list := 1 } : list_pool Nat) ∧
    ({ pool := [⟨100, 0⟩, ⟨200, 1⟩], free_node_list := 1 } : list_pool Nat).chain 3 2
      = some [2, 1] ∧
    ({ pool := [⟨100, 0⟩, ⟨200, 1⟩], free_node_list := 1 } : list_pool Nat).chain 3
        ({ pool := [⟨100, 0⟩, ⟨200, 1⟩], free_node_list := 1 } : list_pool Nat).free_node_list
      = some [1] ∧
    (1 : Nat) ∈ [2, 1] ∧ (1 : Nat) ∈ [1] :=
  ⟨rfl, rfl, rfl, by decide, by decide⟩

/-- Claim C9 (amended): in every state reachable from a fresh pool by
the structural public operations — pushes consuming the head they are
given, `free`/`free_list` consuming their head, `value` writes, but not
`next()` writes — every index in `[1, size()]` is either reachable from
a live head or a member of the free chain, and never both. -/
theorem C9_partition {V : Type} (p : list_pool V) (heads : List Nat)
    (hreach : Relation.ReflTransGen OpStep
      ((list_pool.new : list_pool V), ([] : List Nat)) (p, heads)) :
    ∃ live fl fvs, Covers p heads live ∧ IsList p p.free_node_list fl fvs ∧
      ∀ i : Nat, 1 ≤ i → i ≤ p.size →
        ((i ∈ live ∧ i ∉ fl) ∨ (i ∈ fl ∧ i ∉ live)) := by
  have hgs := goodState_reachable (p, heads) hreach
  obtain ⟨live, fl, fvs, hcover, hfl, hnodup, hcov⟩ := hgs
  refine ⟨live, fl, fvs, hcover, hfl, ?_⟩
  intro i h1 h2
  have hmem : i ∈ live ++ fl := (hcov i).mpr ⟨h1, h2⟩
  have hnd := List.nodup_append.mp hnodup
  rcases List.mem_append.mp hmem with hi | hi
  · exact Or.inl ⟨hi, fun hif => hnd.2.2 hi hif⟩
  · exact Or.inr ⟨hi, fun hil => hnd.2.2 hil hi⟩

/-- Witness for C9 at a concrete input: the state reached by one
push_front onto a fresh pool. -/
theorem C9_witness :
    ∃ live fl fvs,
      Covers ({ pool := [⟨5, 0⟩], free_node_list := 0 } : list_pool Nat) [1] live ∧
      IsList ({ pool := [⟨5, 0⟩], free_node_list := 0 } : list_pool Nat)
        ({ pool := [⟨5, 0⟩], free_node_list := 0 } : list_pool Nat).free_node_list fl fvs ∧
      ∀ i : Nat, 1 ≤ i →
        i ≤ ({ pool := [⟨5, 0⟩], free_node_list := 0 } : list_pool Nat).size →
        ((i ∈ live ∧ i ∉ fl) ∨ (i ∈ fl ∧ i ∉ live)) :=
  C9_partition { pool := [⟨5, 0⟩], free_node_list := 0 } [1]
    (Relation.ReflTransGen.single (OpStep.push_front_new rfl))
